import Mathlib

/-! Wellness tracker (`src/app.js`): storage, streak, windows, aggregation,
suggestions and CSV export.

A shallow embedding of the data and aggregation logic of `src/app.js`
(`StorageManager`, `CheckInView.handleSubmit`, `AnalyticsView`,
`HistoryView.getMoodEmoji`, `UIManager.updateMoodValue`,
`UIManager.showWellnessSuggestion`) and theorems about it.

Modelling conventions

* A calendar date string `YYYY-MM-DD` is represented by the number of days
  between 1970-01-01 and that date (`dateOf` computes it).  `new Date(s)` of
  such a string is UTC midnight of that day, and
  `d.toISOString().split('T')[0]` is the UTC calendar day of the instant `d`.
* An instant is a number of milliseconds since the epoch (`Int`).
* The local time zone is a `Zone`: the offset from UTC in force at an instant
  and the offset by which a local wall-clock time is read back, both in
  milliseconds and positive east of Greenwich.  An integer used as a zone is
  the zone of that constant offset (`fixedZone`).
* A JavaScript number is the exact rational value of a double: `roundDouble`
  rounds a rational to the nearest double (53 bits, ties to even) and the
  arithmetic of the averages rounds after every operation.  `NaN` is `none`
  where it can arise; overflow to `Infinity` and subnormal numbers are not
  modelled.  Comparisons of a mood with the integer thresholds and the product
  of a random draw by 4 are exact in doubles and are taken on rationals.
* `localStorage` under the key `wellnessTrackerData` is `Option (List Entry)`:
  `none` when the key has never been written.
* The value of `Math.random()` is a parameter of `showWellnessSuggestion`.
* The conversions of the browser used by `exportCSV` (a date in the locale of
  the user, a number inside a template literal) are the fields of `Host`;
  `usHost` is one such host, used in the examples.
-/

namespace Wellness

/-! ## Dates and instants -/

/-- Milliseconds in a day. -/
def msPerDay : Int := 86400000

/-- Day number (days since 1970-01-01) of the calendar date `y-m-d` in the
proleptic Gregorian calendar: the day that `new Date("YYYY-MM-DD")` denotes. -/
def dateOf (y m d : Int) : Int :=
  let y1 := if m ≤ 2 then y - 1 else y
  let era := y1 / 400
  let yoe := y1 - era * 400
  let mp := if m > 2 then m - 3 else m + 9
  let doy := (153 * mp + 2) / 5 + d - 1
  let doe := yoe * 365 + yoe / 4 - yoe / 100 + doy
  era * 146097 + doe - 719468

/-- Instant of `new Date(dateString)` for a date-only ISO string: UTC midnight. -/
def parseDate (date : Int) : Int := date * msPerDay

/-- UTC calendar day of an instant: `d.toISOString().split('T')[0]`. -/
def isoDate (t : Int) : Int := t / msPerDay

/-- The local time zone of the browser: `utcOffset t` is the offset from UTC,
in milliseconds and positive east of Greenwich, in force at the instant `t`,
and `localOffset w` is the offset by which the local wall-clock time `w`
(milliseconds since 1970-01-01T00:00 local) is read back as an instant.  The
two differ around a daylight-saving change. -/
structure Zone where
  utcOffset : Int → Int
  localOffset : Int → Int

/-- The zone with the constant offset `tz`, without daylight-saving changes. -/
def fixedZone (tz : Int) : Zone :=
  { utcOffset := fun _ => tz, localOffset := fun _ => tz }

instance : Coe Int Zone := ⟨fixedZone⟩

instance (n : Nat) : OfNat Zone n := ⟨fixedZone (n : Int)⟩

/-- Local wall-clock time of an instant: what `getDate`, `getHours` and the
locale formatting read. -/
def localTime (zone : Zone) (t : Int) : Int := t + zone.utcOffset t

/-- The instant denoted by a local wall-clock time: what a setter of local
fields stores. -/
def utcOfLocal (zone : Zone) (w : Int) : Int := w - zone.localOffset w

/-- Local calendar day of an instant. -/
def localDate (zone : Zone) (t : Int) : Int := localTime zone t / msPerDay

/-- Effect of `d.setHours(0, 0, 0, 0)`: the instant of local midnight of the
local calendar day of `t`. -/
def setHoursMidnight (zone : Zone) (t : Int) : Int :=
  utcOfLocal zone (localDate zone t * msPerDay)

/-- Effect of `d.setDate(d.getDate() - days)`: the same local wall-clock time
`days` local calendar days earlier. -/
def setDateBack (zone : Zone) (t days : Int) : Int :=
  utcOfLocal zone (localTime zone t - days * msPerDay)

/-- Local weekday of an instant, `0` = Sunday (1970-01-01 was a Thursday). -/
def weekday (zone : Zone) (t : Int) : Nat := ((localDate zone t + 4) % 7).toNat

/-! ## Entries and storage -/

/-- One stored record.  `CheckInView.handleSubmit` builds it with every field;
`stress` is `none` for a record without a stress level, which `saveEntry`
accepts like any other.  `mood` and `sleep` are the decimal numbers written in
the stored JSON. -/
structure Entry where
  date : Int
  mood : Int
  sleep : ℚ
  stress : Option Int
  journal : String
  activities : List String
  timestamp : Int
  deriving DecidableEq

/-- Content of `localStorage[storageKey]`; `none` is the missing key. -/
abbrev Storage := Option (List Entry)

/-- Body of `StorageManager.getAllEntries`: `data ? JSON.parse(data) : []`. -/
def getAllEntries (st : Storage) : List Entry :=
  match st with
  | some data => data
  | none => []

/-- Body of `StorageManager.getEntry`: first entry with the given date. -/
def getEntry (date : Int) (st : Storage) : Option Entry :=
  (getAllEntries st).find? (fun entry => entry.date == date)

/-- The method `Array.prototype.findIndex`; `none` stands for the result `-1`. -/
def findIndex {α : Type} (p : α → Bool) : List α → Option Nat
  | [] => none
  | a :: as => if p a then some 0 else (findIndex p as).map (· + 1)

/-- Order used by the comparator `(a, b) => new Date(b.date) - new Date(a.date)`:
`a` may stand before `b` when the comparator is not positive. -/
def newerFirst (a b : Entry) : Prop := parseDate b.date - parseDate a.date ≤ 0

instance : DecidableRel newerFirst := fun a b =>
  inferInstanceAs (Decidable (parseDate b.date - parseDate a.date ≤ 0))

instance : IsTotal Entry newerFirst :=
  ⟨fun a b => by unfold newerFirst parseDate msPerDay; omega⟩

instance : IsTrans Entry newerFirst :=
  ⟨fun a b c => by unfold newerFirst parseDate msPerDay; omega⟩

/-- The call `entries.sort(comparator)`: the stable sort of the list by the
comparator. -/
def sortNewestFirst (entries : List Entry) : List Entry :=
  entries.insertionSort newerFirst

/-- The branch of `saveEntry` that replaces the entry at the found index or
pushes the new entry at the end. -/
def upsert (entry : Entry) (entries : List Entry) : List Entry :=
  match findIndex (fun e => e.date == entry.date) entries with
  | some index => entries.set index entry
  | none => entries ++ [entry]

/-- Body of `StorageManager.saveEntry`. -/
def saveEntry (entry : Entry) (st : Storage) : Storage :=
  let entries := getAllEntries st
  let entries := upsert entry entries
  some (sortNewestFirst entries)

/-! ## Streak and date windows -/

/-- The `for` loop of `calculateStreak`: `remaining` iterations are left,
`currentDate` is the loop's date object and `streak` the counter. -/
def streakLoop (zone : Zone) (entries : List Entry) : Nat → Int → Nat → Nat
  | 0, _, streak => streak
  | remaining + 1, currentDate, streak =>
    let dateStr := isoDate currentDate
    if (entries.find? (fun e => e.date == dateStr)).isSome then
      streakLoop zone entries remaining (setDateBack zone currentDate 1) (streak + 1)
    else
      streak

/-- Body of `StorageManager.calculateStreak` at the instant `now` in the zone
of the browser. -/
def calculateStreak (zone : Zone) (now : Int) (st : Storage) : Nat :=
  let entries := getAllEntries st
  if entries.length = 0 then 0
  else streakLoop zone entries 365 (setHoursMidnight zone now) 0

/-- Body of `StorageManager.getLastNDays` at the instant `now` in the zone of
the browser. -/
def getLastNDays (zone : Zone) (now days : Int) (st : Storage) : List Entry :=
  let entries := getAllEntries st
  let cutoffDate := setDateBack zone now days
  entries.filter (fun entry => decide (parseDate entry.date ≥ cutoffDate))

/-! ## Check-in submission -/

/-- What `handleSubmit` collects from the form: `mood` is
`parseInt(moodSlider.value)`, `sleep` is `parseFloat(sleepHours.value) || 0`,
`stress` is the `data-stress` attribute of the selected stress button read as
an integer, `none` when no button is selected. -/
structure CheckIn where
  mood : Int
  sleep : ℚ
  stress : Option Int
  journal : String
  activities : List String

/-- Observable outcome of `handleSubmit`: the storage afterwards, the text of
the `alert`, and the streak written to the page (`none` when
`UIManager.updateStreak` is not reached).  The wellness suggestion shown after
a successful save is not part of this record. -/
structure SubmitResult where
  storage : Storage
  alert : String
  streak : Option Nat

/-- Body of `CheckInView.handleSubmit`. -/
def handleSubmit (zone : Zone) (now : Int) (form : CheckIn) (st : Storage) : SubmitResult :=
  let today := isoDate now
  match form.stress with
  | none =>
    { storage := st, alert := "Please select your stress level!", streak := none }
  | some stress =>
    let entry : Entry :=
      { date := today, mood := form.mood, sleep := form.sleep, stress := some stress,
        journal := form.journal, activities := form.activities, timestamp := now }
    let st1 := saveEntry entry st
    { storage := st1,
      alert := "✅ Check-in saved successfully! Great job tracking your wellness!",
      streak := some (calculateStreak zone now st1) }

/-! ## Mood buckets -/

/-- Body of `HistoryView.getMoodEmoji`. -/
def getMoodEmoji (moodValue : ℚ) : String :=
  if moodValue ≤ 2 then "😢"
  else if moodValue ≤ 4 then "😟"
  else if moodValue ≤ 6 then "😐"
  else if moodValue ≤ 8 then "🙂"
  else "😊"

/-- Index into `moodEmojis` that `UIManager.updateMoodValue` marks selected. -/
def updateMoodValue (value : ℚ) : Nat :=
  if value ≤ 2 then 0
  else if value ≤ 4 then 1
  else if value ≤ 6 then 2
  else if value ≤ 8 then 3
  else 4

/-! ## Double-precision arithmetic -/

/-- The power `2 ^ e` for an integer exponent. -/
def pow2 (e : Int) : ℚ :=
  if 0 ≤ e then ((2 ^ e.toNat : Nat) : ℚ) else 1 / ((2 ^ (-e).toNat : Nat) : ℚ)

/-- For `x > 0`, the integer `L` with `2 ^ L ≤ x < 2 ^ (L + 1)`. -/
def floorLog2 (x : ℚ) : Int :=
  let k : Int := (Nat.log2 x.num.natAbs : Int) - (Nat.log2 x.den : Int)
  if pow2 k ≤ x then k else k - 1

/-- Rounding of a rational to the nearest integer, a tie going to the even
one. -/
def roundHalfEven (m : ℚ) : Int :=
  if m - ⌊m⌋ < 1 / 2 then ⌊m⌋
  else if 1 / 2 < m - ⌊m⌋ then ⌊m⌋ + 1
  else if ⌊m⌋ % 2 = 0 then ⌊m⌋
  else ⌊m⌋ + 1

/-- The double nearest to `x` (round to nearest, ties to even, 53 significant
bits), as an exact rational.  The exponent range of doubles is not modelled:
values beyond `2 ^ 1024` do not become `Infinity` and values below
`2 ^ (-1022)` keep 53 bits. -/
def roundDouble (x : ℚ) : ℚ :=
  if x = 0 then 0
  else
    (if x < 0 then -1 else 1) * (roundHalfEven (|x| / pow2 (floorLog2 |x| - 52)) : ℚ) *
      pow2 (floorLog2 |x| - 52)

/-- The number that `JSON.parse` reads from a decimal in the stored text: the
nearest double. -/
def jsonNumber (x : ℚ) : ℚ := roundDouble x

/-- The sum `a + b` of two doubles. -/
def floatAdd (a b : ℚ) : ℚ := roundDouble (a + b)

/-- The quotient `a / b` of two doubles. -/
def floatDiv (a b : ℚ) : ℚ := roundDouble (a / b)

/-! ## Number formatting and averages -/

/-- Number of tenths that `x.toFixed(1)` prints for `|x|`: the integer `n` with
`n / 10` closest to `|x|`, the larger one on a tie. -/
def fixedTenths (x : ℚ) : Nat := (⌊|x| * 10 + 1 / 2⌋).toNat

/-- Result of `x.toFixed(1)` for a double `x` (with `|x| < 1e21`). -/
def toFixed1 (x : ℚ) : String :=
  (if x < 0 then "-" else "") ++ toString (fixedTenths x / 10) ++ "." ++
    toString (fixedTenths x % 10)

/-- The number that the string `x.toFixed(1)` converts back to, up to the
rounding of the decimal to a double, which does not change how it compares
with an integer. -/
def fixedValue (x : ℚ) : ℚ :=
  if x < 0 then -((fixedTenths x : ℚ) / 10) else (fixedTenths x : ℚ) / 10

/-- The sum `xs.reduce((a, b) => a + b, 0)` of doubles, added left to right. -/
def reduceSum (xs : List ℚ) : ℚ := xs.foldl (fun a b => floatAdd a b) 0

/-- One step `sum + e.field` of a reduce over entries: `none` is `NaN`, the
result when the sum is already `NaN` or the field is missing. -/
def addField (sum : Option ℚ) (value : Option ℚ) : Option ℚ :=
  match sum, value with
  | some s, some x => some (floatAdd s x)
  | _, _ => none

/-- The quotient `entries.reduce((sum, e) => sum + e.field, 0) / entries.length`;
`none` is `NaN`, produced by `0 / 0` on an empty array or by a missing field. -/
def averageBy (field : Entry → Option ℚ) (entries : List Entry) : Option ℚ :=
  if entries.length = 0 then none
  else
    (entries.foldl (fun sum e => addField sum (field e)) (some 0)).map
      (fun sum => floatDiv sum entries.length)

/-- Result of `toFixed(1)` on a possibly-`NaN` number. -/
def toFixed1Opt : Option ℚ → String
  | some x => toFixed1 x
  | none => "NaN"

/-- Text written by `displaySummaries` into `avgMood`, `avgSleep`, `avgStress`. -/
structure Summaries where
  avgMood : String
  avgSleep : String
  avgStress : String
  deriving DecidableEq

/-- The three quotients of `displaySummaries` before `.toFixed(1)`. -/
def summaryMeans (entries : List Entry) : Option ℚ × Option ℚ × Option ℚ :=
  (averageBy (fun e => some (jsonNumber e.mood)) entries,
   averageBy (fun e => some (jsonNumber e.sleep)) entries,
   averageBy (fun e => e.stress.map (fun (s : Int) => jsonNumber s)) entries)

/-- Body of `AnalyticsView.displaySummaries`. -/
def displaySummaries (entries : List Entry) : Summaries :=
  let avgMood := toFixed1Opt (summaryMeans entries).1
  let avgSleep := toFixed1Opt (summaryMeans entries).2.1
  let avgStress := toFixed1Opt (summaryMeans entries).2.2
  { avgMood := avgMood ++ "/10", avgSleep := avgSleep ++ " hrs",
    avgStress := avgStress ++ "/4" }

/-! ## Chart series -/

/-- Series handed to the three charts by `createCharts`; the axis labels and
the Chart.js objects are presentation and are left out. -/
structure ChartSeries where
  sortedEntries : List Entry
  moods : List Int
  sleeps : List ℚ
  stresses : List (Option Int)
  deriving DecidableEq

/-- Body of `AnalyticsView.createCharts`. -/
def createCharts (entries : List Entry) : ChartSeries :=
  let sortedEntries := entries.reverse
  { sortedEntries := sortedEntries,
    moods := sortedEntries.map (fun e => e.mood),
    sleeps := sortedEntries.map (fun e => e.sleep),
    stresses := sortedEntries.map (fun e => e.stress) }

/-! ## Weekly summary -/

/-- The array `daysOrder`, also the `en-US` short weekday names by weekday
number. -/
def daysOrder : List String := ["Sun", "Mon", "Tue", "Wed", "Thu", "Fri", "Sat"]

/-- Day name `new Date(date).toLocaleDateString('en-US', { weekday: 'short' })`
of a stored date: the date is read as UTC midnight and named in local time. -/
def dayNameOf (zone : Zone) (date : Int) : String :=
  daysOrder.getD (weekday zone (parseDate date)) ""

/-- One value of the `summary` object. -/
structure DayBucket where
  moods : List Int
  sleeps : List ℚ
  stresses : List (Option Int)
  count : Nat
  deriving DecidableEq

/-- One step of the grouping loop of `displayWeeklySummary`; the `summary`
object is the list of its keys and values in insertion order. -/
def addToSummary (zone : Zone) (summary : List (String × DayBucket)) (entry : Entry) :
    List (String × DayBucket) :=
  let dayName := dayNameOf zone entry.date
  let summary :=
    if (summary.lookup dayName).isNone then
      summary ++ [(dayName, { moods := [], sleeps := [], stresses := [], count := 0 })]
    else summary
  summary.map (fun kv =>
    if kv.1 == dayName then
      (kv.1, { moods := kv.2.moods ++ [entry.mood], sleeps := kv.2.sleeps ++ [entry.sleep],
               stresses := kv.2.stresses ++ [entry.stress], count := kv.2.count + 1 })
    else kv)

/-- The `summary` object after the grouping loop. -/
def weeklyGroups (zone : Zone) (entries : List Entry) : List (String × DayBucket) :=
  entries.foldl (addToSummary zone) []

/-- One `weekly-day` element appended by `displayWeeklySummary`: the day name,
the emoji and the text before `/10`. -/
structure WeeklyDay where
  name : String
  emoji : String
  avgMood : String
  deriving DecidableEq

/-- Rendering of one day of `daysOrder`, `none` when `summary[day]` is unset. -/
def renderDay (summary : List (String × DayBucket)) (day : String) : Option WeeklyDay :=
  match summary.lookup day with
  | none => none
  | some bucket =>
    let mean :=
      floatDiv (reduceSum (bucket.moods.map (fun (m : Int) => jsonNumber m))) bucket.moods.length
    let avgMood := toFixed1 mean
    let moodEmoji := getMoodEmoji (fixedValue mean)
    some { name := day, emoji := moodEmoji, avgMood := avgMood }

/-- Body of `AnalyticsView.displayWeeklySummary`: the elements appended to
`weeklySummaryContent`, in order. -/
def displayWeeklySummary (zone : Zone) (entries : List Entry) : List WeeklyDay :=
  let summary := weeklyGroups zone entries
  daysOrder.filterMap (renderDay summary)

/-! ## Wellness suggestion -/

/-- The object `suggestions`: the fixed pool of messages of each category
(`undefined`, here the empty list, for any other key). -/
def suggestions (category : String) : List String :=
  if category = "low" then
    ["💪 Try some light exercise or a short walk to boost your mood.",
     "🧘 Consider a short meditation session (even 5 minutes helps!).",
     "👥 Reach out to a friend - social connection is healing.",
     "🎨 Engage in a hobby or creative activity you enjoy."]
  else if category = "moderate" then
    ["🕐 Take a break from screens and get some fresh air.",
     "📚 Try journaling to process your thoughts and feelings.",
     "🎵 Listen to music that uplifts you.",
     "✨ Practice gratitude - list 3 things you're grateful for."]
  else if category = "high" then
    ["🧘 Practice deep breathing or meditation to calm your mind.",
     "💤 Prioritize getting good sleep tonight.",
     "🌿 Spend time in nature if possible.",
     "📞 Consider talking to someone you trust about what's bothering you."]
  else []

/-- The variable `category` of `showWellnessSuggestion` after its two tests. -/
def suggestionCategory (moodValue : ℚ) : String :=
  if moodValue ≤ 3 then "low"
  else if moodValue ≥ 7 then "high"
  else "moderate"

/-- The index `Math.floor(Math.random() * suggestions[category].length)`, for
the value `random` returned by `Math.random()`. -/
def suggestionIndex (category : String) (random : ℚ) : Int :=
  ⌊random * ((suggestions category).length : ℚ)⌋

/-- Body of `UIManager.showWellnessSuggestion`: the text written into
`suggestionText`, `none` when the index is outside the array (`undefined`).
The value of `Math.random()` is the parameter `random`; `activities` is
received and not used, as in the source. -/
def showWellnessSuggestion (moodValue : ℚ) (_activities : List String) (random : ℚ) :
    Option String :=
  let category := suggestionCategory moodValue
  let index := suggestionIndex category random
  if 0 ≤ index then (suggestions category).get? index.toNat else none

/-! ## CSV export -/

/-- Effect of `s.replace(/"/g, '""')` on the characters of `s`: every
double-quote character is written twice. -/
def doubleQuotes : List Char → List Char
  | [] => []
  | c :: cs => if c = '"' then '"' :: '"' :: doubleQuotes cs else c :: doubleQuotes cs

/-- The call `s.replace(/"/g, '""')`. -/
def replaceQuotes (s : String) : String := String.mk (doubleQuotes s.data)

/-- The conversions of the host that `exportCSV` relies on:
`toLocaleDateString` gives `new Date(date).toLocaleDateString()` for a stored
date, in the locale and zone of the browser, and `numberToString` is the
conversion of a number inside a template literal. -/
structure Host where
  toLocaleDateString : Int → String
  numberToString : ℚ → String

/-- The text `"${notes}"` that ends a row, for the journal of the entry:
`notes` is `entry.journal ? entry.journal.replace(/"/g, '""') : ''`. -/
def notesField (journal : String) : String :=
  let notes := if journal = "" then "" else replaceQuotes journal
  "\"" ++ notes ++ "\""

/-- The text `"${activities}"` of a row: `activities` is
`entry.activities.join('; ')`. -/
def activitiesField (activities : List String) : String :=
  let activities := "; ".intercalate activities
  "\"" ++ activities ++ "\""

/-- The text `${entry.stress}`: the number, or `undefined` when the entry has
no stress level. -/
def stressText (host : Host) (stress : Option Int) : String :=
  match stress with
  | some s => host.numberToString s
  | none => "undefined"

/-- The line appended to `csv` for one entry. -/
def csvRow (host : Host) (entry : Entry) : String :=
  let date := host.toLocaleDateString entry.date
  "\"" ++ date ++ "\"," ++ host.numberToString entry.mood ++ "," ++
    host.numberToString entry.sleep ++ "," ++ stressText host entry.stress ++ "," ++
    activitiesField entry.activities ++ "," ++ notesField entry.journal ++ "\n"

/-- The header line of the export. -/
def csvHeader : String := "Date,Mood,Sleep (hrs),Stress,Activities,Notes\n"

/-- Body of `AnalyticsView.exportCSV`: the text placed in the downloaded file. -/
def exportCSV (host : Host) (entries : List Entry) : String :=
  entries.foldl (fun csv entry => csv ++ csvRow host entry) csvHeader

/-! ## Reference descriptions used to state the CSV claims -/

/-- Replacement of each doubled double-quote character by a single one,
scanning from the left. -/
def collapseQuotes : List Char → List Char
  | [] => []
  | [c] => [c]
  | c :: d :: cs =>
    if c = '"' ∧ d = '"' then '"' :: collapseQuotes cs else c :: collapseQuotes (d :: cs)

/-- Un-quoting of one quoted CSV field: the outer quotes are stripped and each
doubled quote inside is replaced by one; `none` when the text is not wrapped
in double quotes. -/
def csvUnquote (field : String) : Option String :=
  match field.data with
  | [] => none
  | c :: rest =>
    if c = '"' ∧ rest.getLast? = some '"' then
      some (String.mk (collapseQuotes rest.dropLast))
    else none

/-- Position of a reader of CSV text: at the start of a field, inside an
unquoted field, inside a quoted field, or just after a double quote met
inside a quoted field. -/
inductive CsvState where
  | fieldStart
  | bare
  | quoted
  | quoteSeen
  deriving DecidableEq

/-- Reader of CSV text by the standard quoting rule: fields are separated by
commas and records by line feeds; a field that starts with a double quote runs
to its closing quote, a doubled quote inside it standing for one quote
character, and may hold commas and line feeds; `none` for text that breaks
the rule.  `cur` is the field being read, `row` the fields of the record being
read and `rows` the records read so far. -/
def parseCsvFrom : CsvState → List Char → List String → List (List String) → List Char →
    Option (List (List String))
  | .fieldStart, _, row, rows, [] =>
    if row = [] then some rows else some (rows ++ [row ++ [""]])
  | .bare, cur, row, rows, [] => some (rows ++ [row ++ [String.mk cur]])
  | .quoted, _, _, _, [] => none
  | .quoteSeen, cur, row, rows, [] => some (rows ++ [row ++ [String.mk cur]])
  | .fieldStart, _, row, rows, c :: cs =>
    if c = '"' then parseCsvFrom .quoted [] row rows cs
    else if c = ',' then parseCsvFrom .fieldStart [] (row ++ [""]) rows cs
    else if c = '\n' then parseCsvFrom .fieldStart [] [] (rows ++ [row ++ [""]]) cs
    else parseCsvFrom .bare [c] row rows cs
  | .bare, cur, row, rows, c :: cs =>
    if c = '"' then none
    else if c = ',' then parseCsvFrom .fieldStart [] (row ++ [String.mk cur]) rows cs
    else if c = '\n' then parseCsvFrom .fieldStart [] [] (rows ++ [row ++ [String.mk cur]]) cs
    else parseCsvFrom .bare (cur ++ [c]) row rows cs
  | .quoted, cur, row, rows, c :: cs =>
    if c = '"' then parseCsvFrom .quoteSeen cur row rows cs
    else parseCsvFrom .quoted (cur ++ [c]) row rows cs
  | .quoteSeen, cur, row, rows, c :: cs =>
    if c = '"' then parseCsvFrom .quoted (cur ++ ['"']) row rows cs
    else if c = ',' then parseCsvFrom .fieldStart [] (row ++ [String.mk cur]) rows cs
    else if c = '\n' then parseCsvFrom .fieldStart [] [] (rows ++ [row ++ [String.mk cur]]) cs
    else none

/-- The records and fields of a CSV text read by the standard quoting rule. -/
def parseCsv (text : String) : Option (List (List String)) :=
  parseCsvFrom .fieldStart [] [] [] text.data

/-- A text without any double-quote character. -/
def QuoteFree (s : String) : Prop := ∀ c ∈ s.data, c ≠ '"'

instance : DecidablePred QuoteFree := fun s =>
  inferInstanceAs (Decidable (∀ c ∈ s.data, c ≠ '"'))

/-- A text that can stand as an unquoted CSV field: no double quote, no comma
and no line feed. -/
def BareSafe (s : String) : Prop := ∀ c ∈ s.data, c ≠ '"' ∧ c ≠ ',' ∧ c ≠ '\n'

instance : DecidablePred BareSafe := fun s =>
  inferInstanceAs (Decidable (∀ c ∈ s.data, c ≠ '"' ∧ c ≠ ',' ∧ c ≠ '\n'))

/-- The six values of an entry that a row of the export carries, as texts. -/
def rowFields (host : Host) (entry : Entry) : List String :=
  [host.toLocaleDateString entry.date, host.numberToString entry.mood,
   host.numberToString entry.sleep, stressText host entry.stress,
   "; ".intercalate entry.activities, entry.journal]

/-- The six column names of the header. -/
def headerFields : List String :=
  ["Date", "Mood", "Sleep (hrs)", "Stress", "Activities", "Notes"]

/-- Entries for which the unescaped parts of a row are harmless: the date text
and the activity tags hold no double quote, and the three number texts hold no
double quote, comma or line feed. -/
def Exportable (host : Host) (entry : Entry) : Prop :=
  QuoteFree (host.toLocaleDateString entry.date) ∧
    BareSafe (host.numberToString entry.mood) ∧
    BareSafe (host.numberToString entry.sleep) ∧
    BareSafe (stressText host entry.stress) ∧
    ∀ tag ∈ entry.activities, QuoteFree tag

/-! ## Reference description of numbers of ordinary size -/

/-- Entries whose numbers are of ordinary size: fewer than `2 ^ 32` entries,
every mood, stress level and sleep value at most `2 ^ 20` in absolute value,
a sleep value either zero or at least `2 ^ (-100)`, and the stress level
present.  For such entries no sum overflows or underflows and `toFixed` prints
plain decimals. -/
def PlainNumbers (entries : List Entry) : Prop :=
  entries.length < 2 ^ 32 ∧
    ∀ e ∈ entries, e.mood.natAbs ≤ 2 ^ 20 ∧
      (e.sleep = 0 ∨ (1 / 2 ^ 100 ≤ |e.sleep| ∧ |e.sleep| ≤ 2 ^ 20)) ∧
      ∃ s : Int, e.stress = some s ∧ s.natAbs ≤ 2 ^ 20

/-! ## Reference description of the streak walk -/

/-- The date tested by the `j`-th iteration of the loop of `calculateStreak`:
the UTC date of local midnight of today moved back `j` times by one local
calendar day. -/
def walkDay (zone : Zone) (now : Int) (j : Nat) : Int :=
  isoDate ((fun c => setDateBack zone c 1)^[j] (setHoursMidnight zone now))

/-! ## Reference descriptions used to state the weekly summary -/

/-- The entries of a list that fall on the weekday named `day`, in list order. -/
def entriesOnDay (zone : Zone) (day : String) (entries : List Entry) : List Entry :=
  entries.filter (fun e => dayNameOf zone e.date == day)

/-- The bucket made of the values of a list of entries, in list order. -/
def bucketOf (entries : List Entry) : DayBucket :=
  { moods := entries.map (fun e => e.mood), sleeps := entries.map (fun e => e.sleep),
    stresses := entries.map (fun e => e.stress), count := entries.length }

/-- The bucket `b` after the four updates the grouping loop makes for `entry`. -/
def pushEntry (entry : Entry) (b : DayBucket) : DayBucket :=
  { moods := b.moods ++ [entry.mood], sleeps := b.sleeps ++ [entry.sleep],
    stresses := b.stresses ++ [entry.stress], count := b.count + 1 }

/-- The double nearest to the arithmetic mean of the moods of a list of
entries. -/
def meanMood (entries : List Entry) : ℚ :=
  roundDouble ((entries.map (fun e => (e.mood : ℚ))).sum / entries.length)

/-! ## Concrete environments and inputs used in the examples -/

/-- Offset of a zone at UTC+05:30. -/
def istOffset : Int := 19800000

/-- Offset of a zone at UTC-05:00. -/
def estOffset : Int := -18000000

/-- New York in 2024: UTC-05:00, and UTC-04:00 between the clock changes of
2024-03-10 (07:00 UTC, local 02:00 read as 03:00) and 2024-11-03 (06:00 UTC);
a local time inside the skipped or the repeated hour is read with the offset in
force before the change.  For instants and local times of 2024 only. -/
def newYork2024 : Zone :=
  { utcOffset := fun t =>
      if parseDate (dateOf 2024 3 10) + 25200000 ≤ t ∧
          t < parseDate (dateOf 2024 11 3) + 21600000 then -14400000
      else -18000000,
    localOffset := fun w =>
      if parseDate (dateOf 2024 3 10) + 10800000 ≤ w ∧
          w < parseDate (dateOf 2024 11 3) + 7200000 then -14400000
      else -18000000 }

/-- London in 2024: UTC, and UTC+01:00 between the clock changes of 2024-03-31
(01:00 UTC, local 01:00 read as 02:00) and 2024-10-27 (01:00 UTC); a local
time inside the skipped or the repeated hour is read with the offset in force
before the change.  For instants and local times of 2024 only. -/
def london2024 : Zone :=
  { utcOffset := fun t =>
      if parseDate (dateOf 2024 3 31) + 3600000 ≤ t ∧
          t < parseDate (dateOf 2024 10 27) + 3600000 then 3600000
      else 0,
    localOffset := fun w =>
      if parseDate (dateOf 2024 3 31) + 7200000 ≤ w ∧
          w < parseDate (dateOf 2024 10 27) + 7200000 then 3600000
      else 0 }

/-- The instant 2024-01-10T04:30:00.000Z (10:00 local time at UTC+05:30). -/
def tenJanMorning : Int := parseDate (dateOf 2024 1 10) + 16200000

/-- An entry of the given date and values with no notes and no activities. -/
def plainEntry (date mood : Int) (sleep : ℚ) (stress : Int) : Entry :=
  { date := date, mood := mood, sleep := sleep, stress := some stress,
    journal := "", activities := [], timestamp := parseDate date }

/-- Storage with entries for 2024-01-10 and the two days before it. -/
def threeDayStore : Storage :=
  some [plainEntry (dateOf 2024 1 10) 7 8 2, plainEntry (dateOf 2024 1 9) 6 7 2,
    plainEntry (dateOf 2024 1 8) 5 6 3]

/-- An entry dated 2024-01-03, seven days before 2024-01-10. -/
def weekAgoEntry : Entry := plainEntry (dateOf 2024 1 3) 5 7 2

/-- Storage holding `weekAgoEntry` and an entry of the day after it. -/
def weekAgoStore : Storage := some [plainEntry (dateOf 2024 1 4) 6 7 2, weekAgoEntry]

/-- An entry of 2024-01-10 without stress level. -/
def noStressEntry : Entry :=
  { date := dateOf 2024 1 10, mood := 5, sleep := 8, stress := none, journal := "",
    activities := [], timestamp := parseDate (dateOf 2024 1 10) }

/-- A form with mood 11 and stress level 7, both outside the documented ranges. -/
def wildForm : CheckIn :=
  { mood := 11, sleep := 8, stress := some 7, journal := "", activities := [] }

/-- A form on which no stress button is selected. -/
def noStressForm : CheckIn :=
  { mood := 5, sleep := 8, stress := none, journal := "calm day", activities := ["walk"] }

/-- Three entries with moods 1, 1 and 2. -/
def oneOneTwo : List Entry :=
  [plainEntry (dateOf 2024 1 1) 1 8 1, plainEntry (dateOf 2024 1 2) 1 8 1,
    plainEntry (dateOf 2024 1 3) 2 8 1]

/-- Twenty entries: one with mood 7 and stress 2, eight with mood 6 and stress
2, eleven with mood 6 and stress 1. -/
def twentyEntries : List Entry :=
  plainEntry (dateOf 2024 1 1) 7 8 2 ::
    (List.replicate 8 (plainEntry (dateOf 2024 1 2) 6 8 2) ++
      List.replicate 11 (plainEntry (dateOf 2024 1 3) 6 8 1))

/-- An entry of Monday 2024-01-01 with mood 4, sleep 6 and stress 2. -/
def mondayA : Entry := plainEntry (dateOf 2024 1 1) 4 6 2

/-- An entry of Monday 2024-01-08 with mood 8, sleep 8 and stress 1. -/
def mondayB : Entry := plainEntry (dateOf 2024 1 8) 8 8 1

/-- Year, month and day of a day number in the proleptic Gregorian calendar,
the inverse of `dateOf`. -/
def civilOf (date : Int) : Int × Int × Int :=
  let z := date + 719468
  let era := z / 146097
  let doe := z - era * 146097
  let yoe := (doe - doe / 1460 + doe / 36524 - doe / 146096) / 365
  let doy := doe - (365 * yoe + yoe / 4 - yoe / 100)
  let mp := (5 * doy + 2) / 153
  let d := doy - (153 * mp + 2) / 5 + 1
  let m := if mp < 10 then mp + 3 else mp - 9
  (if m ≤ 2 then yoe + era * 400 + 1 else yoe + era * 400, m, d)

/-- The `en-US` form `M/D/YYYY` of `new Date(date).toLocaleDateString()` in the
zone of the browser. -/
def usDateString (zone : Zone) (date : Int) : String :=
  let ymd := civilOf (localDate zone (parseDate date))
  toString ymd.2.1 ++ "/" ++ toString ymd.2.2 ++ "/" ++ toString ymd.1

/-- Up to `fuel` digits of the decimal fraction `rem / den`, stopping when the
expansion ends. -/
def fractionDigits : Nat → Nat → Nat → List Char
  | 0, _, _ => []
  | fuel + 1, rem, den =>
    if rem = 0 then []
    else Nat.digitChar (rem * 10 / den) :: fractionDigits fuel (rem * 10 % den) den

/-- Decimal text of a number: sign, integer part and, when there is one, the
fraction.  It is the text a template literal writes for a number below `1e21`
in absolute value whose shortest decimal is the given rational and ends within
17 fraction digits (beyond `1e21` JavaScript writes an exponent). -/
def decimalString (x : ℚ) : String :=
  let frac := fractionDigits 17 (x.num.natAbs % x.den) x.den
  (if x < 0 then "-" else "") ++ toString (x.num.natAbs / x.den) ++
    (if frac = [] then "" else "." ++ String.mk frac)

/-- A host with the `en-US` locale in the given zone. -/
def usHost (zone : Zone) : Host :=
  { toLocaleDateString := usDateString zone, numberToString := decimalString }

/-- An entry of 2024-01-01 whose journal holds double quotes and a comma and
whose activity tags hold a comma. -/
def quotedJournalEntry : Entry :=
  { date := dateOf 2024 1 1, mood := 7, sleep := 15 / 2, stress := some 2,
    journal := "He said \"hi\", then left", activities := ["walk, slow", "read"],
    timestamp := parseDate (dateOf 2024 1 1) }

/-- An entry of 2024-01-01 with the journal `He said "hi"` and the activity
tag gym. -/
def heSaidEntry : Entry :=
  { date := dateOf 2024 1 1, mood := 7, sleep := 15 / 2, stress := some 2,
    journal := "He said \"hi\"", activities := ["gym"],
    timestamp := parseDate (dateOf 2024 1 1) }

/-- An entry of 2024-01-01 with one activity tag that holds double quotes
around a comma. -/
def quotedTagEntry : Entry :=
  { date := dateOf 2024 1 1, mood := 7, sleep := 15 / 2, stress := some 2,
    journal := "fine", activities := ["gym\",\"pool"],
    timestamp := parseDate (dateOf 2024 1 1) }

/-! ## Theorems. Storage: replacing or appending an entry -/

/-- Saving into an empty list pushes the entry. -/
theorem upsert_nil (e : Entry) : upsert e [] = [e] := rfl

/-- Unfolding of `upsert` on a non-empty list: the head is replaced when its date
matches, otherwise the search goes on in the tail. -/
theorem upsert_cons (e a : Entry) (l : List Entry) :
    upsert e (a :: l) = if a.date = e.date then e :: l else a :: upsert e l := by
  unfold upsert
  by_cases h : a.date = e.date
  · simp [findIndex, h]
  · simp only [findIndex, beq_iff_eq, h, if_false]
    cases findIndex (fun x => x.date == e.date) l <;> simp

/-- The saved entry is in the list after `upsert`. -/
theorem mem_upsert_self (e : Entry) (l : List Entry) : e ∈ upsert e l := by
  induction l with
  | nil => simp [upsert_nil]
  | cons a l ih =>
    rw [upsert_cons]
    split
    · simp
    · simp [ih]

/-- Every entry of the list after `upsert` is the saved entry or was there before. -/
theorem mem_upsert (e x : Entry) (l : List Entry) (hx : x ∈ upsert e l) :
    x = e ∨ x ∈ l := by
  induction l with
  | nil => simpa [upsert_nil] using hx
  | cons a l ih =>
    rw [upsert_cons] at hx
    split at hx
    · rcases List.mem_cons.1 hx with h | h
      · exact Or.inl h
      · exact Or.inr (List.mem_cons_of_mem _ h)
    · rcases List.mem_cons.1 hx with h | h
      · exact Or.inr (h ▸ List.mem_cons_self _ _)
      · rcases ih h with h1 | h1
        · exact Or.inl h1
        · exact Or.inr (List.mem_cons_of_mem _ h1)

/-- Replacing or pushing keeps dates pairwise distinct. -/
theorem nodup_dates_upsert (e : Entry) (l : List Entry)
    (h : (l.map Entry.date).Nodup) : ((upsert e l).map Entry.date).Nodup := by
  induction l with
  | nil => simp [upsert_nil]
  | cons a l ih =>
    rw [upsert_cons]
    rw [List.map_cons, List.nodup_cons] at h
    split
    · rename_i hd
      rw [List.map_cons, List.nodup_cons, ← hd]
      exact h
    · rename_i hd
      rw [List.map_cons, List.nodup_cons]
      refine ⟨?_, ih h.2⟩
      intro hmem
      obtain ⟨x, hx, hxd⟩ := List.mem_map.1 hmem
      rcases mem_upsert e x l hx with h1 | h1
      · exact hd (by rw [← hxd, h1])
      · exact h.1 (List.mem_map.2 ⟨x, h1, hxd⟩)

/-- When the date is already present the list keeps its length. -/
theorem length_upsert_of_mem (e : Entry) (l : List Entry)
    (h : e.date ∈ l.map Entry.date) : (upsert e l).length = l.length := by
  induction l with
  | nil => simp at h
  | cons a l ih =>
    rw [upsert_cons]
    split
    · simp
    · rename_i hd
      have : e.date ∈ l.map Entry.date := by
        rcases List.mem_cons.1 h with h1 | h1
        · exact absurd h1.symm hd
        · exact h1
      simp [ih this]

/-- When the date is absent the list grows by one. -/
theorem length_upsert_of_not_mem (e : Entry) (l : List Entry)
    (h : e.date ∉ l.map Entry.date) : (upsert e l).length = l.length + 1 := by
  induction l with
  | nil => simp [upsert_nil]
  | cons a l ih =>
    rw [upsert_cons]
    rw [List.map_cons, List.mem_cons, not_or] at h
    split
    · rename_i hd
      exact absurd hd.symm h.1
    · simp [ih h.2]

/-! ## Theorems. Storage: the sort after each save -/

/-- The comparator order in terms of day numbers. -/
theorem newerFirst_iff (a b : Entry) : newerFirst a b ↔ b.date ≤ a.date := by
  unfold newerFirst parseDate msPerDay
  omega

/-- Sorting permutes the entries. -/
theorem sortNewestFirst_perm (l : List Entry) : (sortNewestFirst l).Perm l :=
  List.perm_insertionSort _ l

/-- After sorting, dates never increase along the list. -/
theorem sortNewestFirst_sorted (l : List Entry) :
    (sortNewestFirst l).Pairwise (fun a b => b.date ≤ a.date) := by
  have h : List.Sorted newerFirst (sortNewestFirst l) := List.sorted_insertionSort _ l
  exact List.Pairwise.imp (fun {a b} hab => (newerFirst_iff a b).1 hab) h

/-- What `getAllEntries` reads after a save. -/
theorem getAllEntries_saveEntry (e : Entry) (st : Storage) :
    getAllEntries (saveEntry e st) = sortNewestFirst (upsert e (getAllEntries st)) := rfl

/-- A save keeps dates pairwise distinct. -/
theorem nodup_dates_saveEntry (e : Entry) (st : Storage)
    (h : ((getAllEntries st).map Entry.date).Nodup) :
    ((getAllEntries (saveEntry e st)).map Entry.date).Nodup := by
  rw [getAllEntries_saveEntry]
  exact (((sortNewestFirst_perm _).map Entry.date).nodup_iff).2 (nodup_dates_upsert e _ h)

/-- The saved entry is stored. -/
theorem mem_saveEntry_self (e : Entry) (st : Storage) :
    e ∈ getAllEntries (saveEntry e st) := by
  rw [getAllEntries_saveEntry]
  exact (sortNewestFirst_perm _).mem_iff.2 (mem_upsert_self e _)

/-- After a save into a store with distinct dates, dates strictly decrease. -/
theorem pairwise_gt_saveEntry (e : Entry) (st : Storage)
    (h : ((getAllEntries st).map Entry.date).Nodup) :
    (getAllEntries (saveEntry e st)).Pairwise (fun a b => b.date < a.date) := by
  have hn := nodup_dates_saveEntry e st h
  have hs := sortNewestFirst_sorted (upsert e (getAllEntries st))
  rw [← getAllEntries_saveEntry] at hs
  have hne : (getAllEntries (saveEntry e st)).Pairwise (fun a b => a.date ≠ b.date) :=
    List.pairwise_map.1 hn
  exact (hs.and hne).imp (fun {a b} hab => lt_of_le_of_ne hab.1 (Ne.symm hab.2))

/-- Strictly decreasing dates are pairwise distinct. -/
theorem nodup_dates_of_pairwise_gt (l : List Entry)
    (h : l.Pairwise (fun a b => b.date < a.date)) : (l.map Entry.date).Nodup :=
  List.pairwise_map.2 (h.imp (fun hab => (ne_of_lt hab).symm))

/-- Strictly decreasing dates are kept by any sequence of saves. -/
theorem foldl_saveEntry_sorted (es : List Entry) (st : Storage)
    (h : (getAllEntries st).Pairwise (fun a b => b.date < a.date)) :
    (getAllEntries (es.foldl (fun s e => saveEntry e s) st)).Pairwise
      (fun a b => b.date < a.date) := by
  induction es generalizing st with
  | nil => simpa using h
  | cons e es ih =>
    rw [List.foldl_cons]
    exact ih _ (pairwise_gt_saveEntry e st (nodup_dates_of_pairwise_gt _ h))

/-! ## Theorems. Storage: lookup by date -/

/-- With distinct dates, the records of the date of a stored entry are that entry
alone. -/
theorem filter_date_eq_of_nodup (e : Entry) (l : List Entry)
    (hn : (l.map Entry.date).Nodup) (he : e ∈ l) :
    l.filter (fun x => x.date == e.date) = [e] := by
  induction l with
  | nil => simp at he
  | cons a l ih =>
    rw [List.map_cons, List.nodup_cons] at hn
    rcases List.mem_cons.1 he with h | h
    · subst h
      have : l.filter (fun x => x.date == e.date) = [] := by
        rw [List.filter_eq_nil_iff]
        intro x hx hxe
        exact hn.1 (List.mem_map.2 ⟨x, hx, by simpa using hxe⟩)
      simp [List.filter_cons, this]
    · have hne : a.date ≠ e.date := by
        intro hae
        exact hn.1 (List.mem_map.2 ⟨e, h, hae.symm⟩)
      simp [List.filter_cons, hne, ih hn.2 h]

/-- With distinct dates, the lookup by the date of a stored entry finds that entry. -/
theorem find_date_eq_of_nodup (e : Entry) (l : List Entry)
    (hn : (l.map Entry.date).Nodup) (he : e ∈ l) :
    l.find? (fun x => x.date == e.date) = some e := by
  induction l with
  | nil => simp at he
  | cons a l ih =>
    rw [List.map_cons, List.nodup_cons] at hn
    rcases List.mem_cons.1 he with h | h
    · subst h
      simp
    · have hne : a.date ≠ e.date := by
        intro hae
        exact hn.1 (List.mem_map.2 ⟨e, h, hae.symm⟩)
      simp [List.find?_cons, hne, ih hn.2 h]

/-- The sort keeps the records of one date in the order they had. -/
theorem filter_date_sortNewestFirst (d : Int) (l : List Entry) :
    (sortNewestFirst l).filter (fun x => x.date == d) = l.filter (fun x => x.date == d) := by
  have hpw : (l.filter (fun x => x.date == d)).Pairwise newerFirst := by
    rw [List.pairwise_iff_forall_sublist]
    intro a b hab
    have ha : a ∈ l.filter (fun x => x.date == d) := hab.subset (by simp)
    have hb : b ∈ l.filter (fun x => x.date == d) := hab.subset (by simp)
    rw [newerFirst_iff]
    have h1 : a.date = d := by simpa using (List.mem_filter.1 ha).2
    have h2 : b.date = d := by simpa using (List.mem_filter.1 hb).2
    omega
  have hsub : List.Sublist (l.filter (fun x => x.date == d)) (sortNewestFirst l) :=
    List.sublist_insertionSort hpw (List.filter_sublist l)
  have hsub2 := hsub.filter (fun x => x.date == d)
  rw [List.filter_filter] at hsub2
  simp only [Bool.and_self] at hsub2
  have hlen : (l.filter (fun x => x.date == d)).length =
      ((sortNewestFirst l).filter (fun x => x.date == d)).length :=
    ((sortNewestFirst_perm l).filter _).length_eq.symm
  exact (hsub2.eq_of_length hlen).symm

/-- The first element satisfying a test is the head of the filtered list. -/
theorem find_eq_head_filter (p : Entry → Bool) (l : List Entry) :
    l.find? p = (l.filter p).head? := by
  induction l with
  | nil => rfl
  | cons a l ih =>
    by_cases h : p a = true
    · rw [List.find?_cons_of_pos _ h, List.filter_cons_of_pos h]
      rfl
    · rw [List.find?_cons_of_neg _ h, List.filter_cons_of_neg h]
      exact ih

/-- The first record of a date is the same before and after the sort. -/
theorem find_date_sortNewestFirst (d : Int) (l : List Entry) :
    (sortNewestFirst l).find? (fun x => x.date == d) = l.find? (fun x => x.date == d) := by
  rw [find_eq_head_filter, find_eq_head_filter, filter_date_sortNewestFirst]

/-- After `upsert` the first record of the saved date is the saved entry. -/
theorem find_date_upsert (e : Entry) (l : List Entry) :
    (upsert e l).find? (fun x => x.date == e.date) = some e := by
  induction l with
  | nil => simp [upsert_nil]
  | cons a l ih =>
    rw [upsert_cons]
    split
    · simp
    · rename_i hd
      simp [List.find?_cons, hd, ih]

/-- Reading back the date just saved returns the saved entry, in any storage. -/
theorem getEntry_saveEntry (e : Entry) (st : Storage) :
    getEntry e.date (saveEntry e st) = some e := by
  unfold getEntry
  rw [getAllEntries_saveEntry, find_date_sortNewestFirst, find_date_upsert]

/-! ## Theorems. Saving entries -/

/-- C1: in a store with at most one entry per date, saving `e1` and then `e2`
with the same date leaves exactly one record of that date, which is `e2`;
`getEntry` returns it, and the second save replaces instead of appending. -/
theorem saveEntry_twice_last_wins (st : Storage) (e1 e2 : Entry)
    (hst : ((getAllEntries st).map Entry.date).Nodup) (hd : e1.date = e2.date) :
    (getAllEntries (saveEntry e2 (saveEntry e1 st))).filter
        (fun e => e.date == e2.date) = [e2] ∧
      getEntry e2.date (saveEntry e2 (saveEntry e1 st)) = some e2 ∧
      (getAllEntries (saveEntry e2 (saveEntry e1 st))).length =
        (getAllEntries (saveEntry e1 st)).length := by
  have h1 := nodup_dates_saveEntry e1 st hst
  have h2 := nodup_dates_saveEntry e2 _ h1
  have hm := mem_saveEntry_self e2 (saveEntry e1 st)
  refine ⟨filter_date_eq_of_nodup e2 _ h2 hm, find_date_eq_of_nodup e2 _ h2 hm, ?_⟩
  rw [getAllEntries_saveEntry e2, (sortNewestFirst_perm _).length_eq]
  apply length_upsert_of_mem
  exact List.mem_map.2 ⟨e1, mem_saveEntry_self e1 st, hd⟩

/-- Instance of C1: two saves for 2024-01-09 into a three-entry store. -/
theorem saveEntry_twice_last_wins_witness :
    ((getAllEntries threeDayStore).map Entry.date).Nodup ∧
      (plainEntry (dateOf 2024 1 9) 3 5 4).date = (plainEntry (dateOf 2024 1 9) 9 8 1).date ∧
      getEntry (dateOf 2024 1 9)
          (saveEntry (plainEntry (dateOf 2024 1 9) 9 8 1)
            (saveEntry (plainEntry (dateOf 2024 1 9) 3 5 4) threeDayStore)) =
        some (plainEntry (dateOf 2024 1 9) 9 8 1) :=
  ⟨by decide, rfl,
    (saveEntry_twice_last_wins threeDayStore (plainEntry (dateOf 2024 1 9) 3 5 4)
      (plainEntry (dateOf 2024 1 9) 9 8 1) (by decide) rfl).2.1⟩

/-- C2: starting from the empty storage, after any finite sequence of
`saveEntry` calls `getAllEntries` is strictly descending by date (newest
first) and holds no two entries with the same date. -/
theorem getAllEntries_sorted_after_saves (es : List Entry) :
    (getAllEntries (es.foldl (fun s e => saveEntry e s) none)).Sorted
        (fun a b => a.date > b.date) ∧
      ((getAllEntries (es.foldl (fun s e => saveEntry e s) none)).map Entry.date).Nodup := by
  have h := foldl_saveEntry_sorted es none (by simp [getAllEntries])
  exact ⟨h, nodup_dates_of_pairwise_gt _ h⟩

/-! ## Theorems. Streak -/

/-- The test of the streak loop succeeds exactly when some entry has the date. -/
theorem find_date_isSome (entries : List Entry) (d : Int) :
    (entries.find? (fun e => e.date == d)).isSome = true ↔ ∃ e ∈ entries, e.date = d := by
  rw [List.find?_isSome]
  simp

/-- Invariant of the streak loop started at `cur` with counter `s`, in any
zone: the counter grows by at most the number of iterations, every day of the
walk that is counted has an entry, and the loop stops at the cap or at a day
of the walk without entry. -/
theorem streakLoop_spec (zone : Zone) (entries : List Entry) (fuel : Nat) :
    ∀ (cur : Int) (s : Nat),
      s ≤ streakLoop zone entries fuel cur s ∧
      streakLoop zone entries fuel cur s ≤ s + fuel ∧
      (∀ j : Nat, j < streakLoop zone entries fuel cur s - s →
        ∃ e ∈ entries, e.date = isoDate ((fun c => setDateBack zone c 1)^[j] cur)) ∧
      (streakLoop zone entries fuel cur s = s + fuel ∨
        ∀ e ∈ entries,
          e.date ≠ isoDate ((fun c => setDateBack zone c 1)^[
            streakLoop zone entries fuel cur s - s] cur)) := by
  induction fuel with
  | zero =>
    intro cur s
    simp [streakLoop]
  | succ n ih =>
    intro cur s
    unfold streakLoop
    by_cases hf : (entries.find? (fun e => e.date == isoDate cur)).isSome = true
    · simp only [hf, if_true]
      obtain ⟨h1, h2, h3, h4⟩ := ih (setDateBack zone cur 1) (s + 1)
      refine ⟨by omega, by omega, ?_, ?_⟩
      · intro j hj
        cases j with
        | zero => simpa using (find_date_isSome entries (isoDate cur)).1 hf
        | succ j =>
          obtain ⟨e, he, hd⟩ := h3 j (by omega)
          exact ⟨e, he, by rw [hd, Function.iterate_succ_apply]⟩
      · rcases h4 with h4 | h4
        · exact Or.inl (by omega)
        · right
          intro e he
          have hk : streakLoop zone entries n (setDateBack zone cur 1) (s + 1) - s =
              (streakLoop zone entries n (setDateBack zone cur 1) (s + 1) - (s + 1)) + 1 := by
            omega
          rw [hk, Function.iterate_succ_apply]
          exact h4 e he
    · simp only [hf, Bool.false_eq_true, if_false]
      refine ⟨le_refl _, by omega, ?_, ?_⟩
      · intro j hj
        omega
      · right
        intro e he hc
        apply hf
        rw [find_date_isSome]
        exact ⟨e, he, by simpa using hc⟩

/-- Characterisation of `calculateStreak` in any zone: it is the least `k` in
`0..365` such that `k = 365` or no entry is dated as the `k`-th day of the
walk, the walk being the UTC dates of local midnight of today moved back one
local calendar day at a time. -/
theorem calculateStreak_walk (zone : Zone) (now : Int) (st : Storage) :
    calculateStreak zone now st ≤ 365 ∧
      (∀ j : Nat, j < calculateStreak zone now st →
        ∃ e ∈ getAllEntries st, e.date = walkDay zone now j) ∧
      (calculateStreak zone now st = 365 ∨
        ∀ e ∈ getAllEntries st, e.date ≠ walkDay zone now (calculateStreak zone now st)) := by
  unfold calculateStreak walkDay
  by_cases h0 : (getAllEntries st).length = 0
  · have hnil : getAllEntries st = [] := List.length_eq_zero.1 h0
    simp [hnil]
  · simp only [h0, if_false]
    obtain ⟨_, h2, h3, h4⟩ :=
      streakLoop_spec zone (getAllEntries st) 365 (setHoursMidnight zone now) 0
    refine ⟨by omega, ?_, ?_⟩
    · intro j hj
      exact h3 j (by omega)
    · rcases h4 with h4 | h4
      · exact Or.inl (by omega)
      · exact Or.inr (by simpa using h4)

/-- In a zone of constant offset, stepping back one day lowers the UTC date by
one. -/
theorem isoDate_setDateBack_one (tz t : Int) :
    isoDate (setDateBack tz t 1) = isoDate t - 1 := by
  simp only [isoDate, setDateBack, utcOfLocal, localTime, fixedZone, msPerDay]
  omega

/-- In a zone of constant offset the walk goes down one UTC date at a time. -/
theorem walkDay_fixed (tz now : Int) (j : Nat) :
    walkDay tz now j = isoDate (setHoursMidnight tz now) - (j : Int) := by
  unfold walkDay
  generalize setHoursMidnight (fixedZone tz) now = cur
  induction j generalizing cur with
  | zero => simp
  | succ j ih =>
    rw [Function.iterate_succ_apply, ih, isoDate_setDateBack_one]
    push_cast
    omega

/-- Characterisation of `calculateStreak` in a zone of constant offset: it is
the least `k` in `0..365` such that `k = 365` or no entry is dated `k` days
before the UTC calendar day of the local midnight the walk starts from. -/
theorem calculateStreak_spec (tz now : Int) (st : Storage) :
    calculateStreak tz now st ≤ 365 ∧
      (∀ j : Nat, j < calculateStreak tz now st →
        ∃ e ∈ getAllEntries st, e.date = isoDate (setHoursMidnight tz now) - (j : Int)) ∧
      (calculateStreak tz now st = 365 ∨
        ∀ e ∈ getAllEntries st,
          e.date ≠ isoDate (setHoursMidnight tz now) - (calculateStreak tz now st : Int)) := by
  obtain ⟨h1, h2, h3⟩ := calculateStreak_walk tz now st
  refine ⟨h1, ?_, ?_⟩
  · intro j hj
    obtain ⟨e, he, hd⟩ := h2 j hj
    exact ⟨e, he, by rw [hd, walkDay_fixed]⟩
  · rcases h3 with h3 | h3
    · exact Or.inl h3
    · right
      intro e he
      have := h3 e he
      rwa [walkDay_fixed] at this

/-- With offset zero, local midnight lies on today's UTC date. -/
theorem isoDate_setHoursMidnight_utc (now : Int) :
    isoDate (setHoursMidnight 0 now) = isoDate now := by
  simp only [isoDate, setHoursMidnight, utcOfLocal, localDate, localTime, msPerDay]
  show ((now + 0) / 86400000 * 86400000 - 0) / 86400000 = now / 86400000
  omega

/-- In a zone whose offset is zero the walk starts from today's UTC date, so
`calculateStreak` is the least `k` in `0..365` such that `k = 365` or no entry
is dated `k` days before today. -/
theorem calculateStreak_utc (now : Int) (st : Storage) :
    calculateStreak 0 now st ≤ 365 ∧
      (∀ j : Nat, j < calculateStreak 0 now st →
        ∃ e ∈ getAllEntries st, e.date = isoDate now - (j : Int)) ∧
      (calculateStreak 0 now st = 365 ∨
        ∀ e ∈ getAllEntries st, e.date ≠ isoDate now - (calculateStreak 0 now st : Int)) := by
  have h := calculateStreak_spec 0 now st
  have h0 : isoDate (setHoursMidnight (fixedZone (0 : Int)) now) = isoDate now :=
    isoDate_setHoursMidnight_utc now
  rw [h0] at h
  exact h

/-- Across the start of summer time in London the walk visits one UTC date
twice: at 10:00 local time on 2024-04-02 the local midnights of 04-02, 04-01,
03-31 and 03-30 fall on the UTC dates 04-01, 03-31, 03-31 and 03-30, so with
entries dated 04-01, 03-31 and 03-30 and none for 03-29 `calculateStreak`
returns 4. -/
theorem calculateStreak_across_clock_change :
    (List.range 5).map (walkDay london2024 (parseDate (dateOf 2024 4 2) + 32400000)) =
        [dateOf 2024 4 1, dateOf 2024 3 31, dateOf 2024 3 31, dateOf 2024 3 30,
          dateOf 2024 3 29] ∧
      calculateStreak london2024 (parseDate (dateOf 2024 4 2) + 32400000)
        (some [plainEntry (dateOf 2024 4 1) 6 7 2, plainEntry (dateOf 2024 3 31) 6 7 2,
          plainEntry (dateOf 2024 3 30) 6 7 2]) = 4 := by
  decide

/-- C3: at 10:00 local time in a zone at UTC+05:30, with entries for today and
the two days before it and none for three days ago, `calculateStreak` returns
2, and with an entry for yesterday only it returns 1: the walk starts from the
UTC day of local midnight, which is yesterday. -/
theorem calculateStreak_east_of_utc :
    (getAllEntries threeDayStore).map Entry.date =
        [isoDate tenJanMorning, isoDate tenJanMorning - 1, isoDate tenJanMorning - 2] ∧
      localDate istOffset tenJanMorning = isoDate tenJanMorning ∧
      isoDate (setHoursMidnight istOffset tenJanMorning) = isoDate tenJanMorning - 1 ∧
      calculateStreak istOffset tenJanMorning threeDayStore = 2 ∧
      calculateStreak istOffset tenJanMorning
        (some [plainEntry (isoDate tenJanMorning - 1) 6 7 2]) = 1 ∧
      calculateStreak 0 tenJanMorning threeDayStore = 3 := by
  decide

/-! ## Theorems. Validation at submission -/

/-- C4 (counterexample): `saveEntry` given an entry without stress level
reports nothing and stores it: the entry is read back, and a store that had
three entries has changed. -/
theorem saveEntry_accepts_missing_stress :
    noStressEntry.stress = none ∧
      getEntry noStressEntry.date (saveEntry noStressEntry none) = some noStressEntry ∧
      noStressEntry ∈ getAllEntries (saveEntry noStressEntry threeDayStore) ∧
      saveEntry noStressEntry threeDayStore ≠ threeDayStore := by
  decide!

/-- C4 (amended): when no stress level is selected, `handleSubmit` shows the
validation message, does not reach `saveEntry` or the streak update, and
leaves the storage as it was; `saveEntry` itself makes no check and stores
whatever entry it is given, with or without a stress level. -/
theorem handleSubmit_without_stress (zone : Zone) (now : Int) (form : CheckIn)
    (st : Storage) (h : form.stress = none) :
    (handleSubmit zone now form st).alert = "Please select your stress level!" ∧
      (handleSubmit zone now form st).storage = st ∧
      (handleSubmit zone now form st).streak = none ∧
      ∀ e : Entry, getEntry e.date (saveEntry e st) = some e := by
  refine ⟨?_, ?_, ?_, fun e => getEntry_saveEntry e st⟩ <;> simp [handleSubmit, h]

/-- Instance of C4 (amended): a form without stress selection submitted over a
three-entry store, and an entry without stress level saved into it. -/
theorem handleSubmit_without_stress_witness :
    noStressForm.stress = none ∧
      (handleSubmit istOffset tenJanMorning noStressForm threeDayStore).storage =
        threeDayStore ∧
      getEntry noStressEntry.date (saveEntry noStressEntry threeDayStore) =
        some noStressEntry :=
  ⟨rfl,
    (handleSubmit_without_stress istOffset tenJanMorning noStressForm threeDayStore rfl).2.1,
    (handleSubmit_without_stress istOffset tenJanMorning noStressForm threeDayStore
      rfl).2.2.2 noStressEntry⟩

/-- C5 (counterexample): a form with mood 11 and stress level 7 is accepted:
the success message is shown and the entry is stored with mood 11 and stress 7. -/
theorem handleSubmit_accepts_out_of_range :
    (handleSubmit 0 tenJanMorning wildForm none).alert =
        "✅ Check-in saved successfully! Great job tracking your wellness!" ∧
      (getEntry (isoDate tenJanMorning)
          (handleSubmit 0 tenJanMorning wildForm none).storage).map
        (fun e => (e.mood, e.stress)) = some (11, some 7) := by
  decide

/-- C5 (amended): whenever a stress level is selected, whatever the mood and
stress values are, `handleSubmit` reports success and saves an entry carrying
exactly the submitted values, neither rejected nor clamped: reading today's
entry back returns them. -/
theorem handleSubmit_saves_values_unchanged (zone : Zone) (now mood stress : Int)
    (sleep : ℚ) (journal : String) (activities : List String) (st : Storage) :
    (handleSubmit zone now
        { mood := mood, sleep := sleep, stress := some stress, journal := journal,
          activities := activities } st).alert =
        "✅ Check-in saved successfully! Great job tracking your wellness!" ∧
      (handleSubmit zone now
        { mood := mood, sleep := sleep, stress := some stress, journal := journal,
          activities := activities } st).storage =
        saveEntry
          { date := isoDate now, mood := mood, sleep := sleep, stress := some stress,
            journal := journal, activities := activities, timestamp := now } st ∧
      getEntry (isoDate now)
          (handleSubmit zone now
            { mood := mood, sleep := sleep, stress := some stress, journal := journal,
              activities := activities } st).storage =
        some { date := isoDate now, mood := mood, sleep := sleep, stress := some stress,
               journal := journal, activities := activities, timestamp := now } := by
  refine ⟨rfl, rfl, ?_⟩
  exact getEntry_saveEntry
    { date := isoDate now, mood := mood, sleep := sleep, stress := some stress,
      journal := journal, activities := activities, timestamp := now } st

/-! ## Theorems. Date window -/

/-- The cutoff test of `getLastNDays` in terms of calendar dates: the UTC
midnight of a date is not before an instant exactly when the date is after the
UTC date of the instant, or on it when the instant is a UTC midnight. -/
theorem ge_cutoff_iff (c d : Int) :
    (parseDate d ≥ c) ↔ (if c % msPerDay = 0 then isoDate c ≤ d else isoDate c < d) := by
  unfold parseDate isoDate msPerDay
  split <;> omega

/-- In a zone of constant offset `setDate(getDate() - n)` moves the instant back
by `n` times 24 hours. -/
theorem setDateBack_fixed (tz now n : Int) :
    setDateBack tz now n = now - n * msPerDay := by
  simp only [setDateBack, utcOfLocal, localTime, fixedZone]
  omega

/-- In a zone of constant offset the UTC date of the cutoff is today minus `n`
days, and the cutoff is a UTC midnight exactly when now is one. -/
theorem cutoff_fixed (tz now n : Int) :
    isoDate (setDateBack tz now n) = isoDate now - n ∧
      (setDateBack tz now n % msPerDay = 0 ↔ now % msPerDay = 0) := by
  rw [setDateBack_fixed]
  unfold isoDate msPerDay
  constructor
  · omega
  · constructor <;> intro h <;> omega

/-- C6 (counterexample): at 04:30 UTC on 2024-01-10, in the zone UTC, an entry
dated exactly seven days before today is stored but is not returned by
`getLastNDays(7)`. -/
theorem getLastNDays_seven_drops_day_seven :
    weekAgoEntry.date = isoDate tenJanMorning - 7 ∧
      weekAgoEntry ∈ getAllEntries weekAgoStore ∧
      weekAgoEntry ∉ getLastNDays 0 tenJanMorning 7 weekAgoStore := by
  decide

/-- Across the start of daylight-saving time in New York, at 19:30 local time
on 2024-03-11 (23:30 UTC), the cutoff of `getLastNDays(7)` is 19:30 local time
on 2024-03-04, which is 00:30 UTC on 2024-03-05: of the entries dated
2024-03-06 and 2024-03-05 only the first is returned. -/
theorem getLastNDays_across_clock_change :
    setDateBack newYork2024 (parseDate (dateOf 2024 3 11) + 84600000) 7 =
        parseDate (dateOf 2024 3 5) + 1800000 ∧
      (getLastNDays newYork2024 (parseDate (dateOf 2024 3 11) + 84600000) 7
          (some [plainEntry (dateOf 2024 3 6) 6 7 2, plainEntry (dateOf 2024 3 5) 6 7 2])).map
        Entry.date = [dateOf 2024 3 6] := by
  decide

/-- C6 (amended): in any zone, `getLastNDays(n)` keeps, in storage order, the
entries whose UTC midnight is not before the cutoff, the instant with the same
local wall-clock time `n` local calendar days before now: those dated after
the UTC date of the cutoff, and those dated on it only when the cutoff is
exactly a UTC midnight.  In a zone of constant offset these are the entries
dated strictly after today minus `n` days, and those dated on today minus `n`
days only when now is exactly a UTC midnight. -/
theorem getLastNDays_eq_filter (zone : Zone) (now n : Int) (st : Storage) :
    getLastNDays zone now n st =
        (getAllEntries st).filter (fun e =>
          if setDateBack zone now n % msPerDay = 0 then
            decide (isoDate (setDateBack zone now n) ≤ e.date)
          else decide (isoDate (setDateBack zone now n) < e.date)) ∧
      ∀ tz : Int, getLastNDays tz now n st =
        (getAllEntries st).filter (fun e =>
          if now % msPerDay = 0 then decide (isoDate now - n ≤ e.date)
          else decide (isoDate now - n < e.date)) := by
  have hgen : ∀ z : Zone, getLastNDays z now n st =
      (getAllEntries st).filter (fun e =>
        if setDateBack z now n % msPerDay = 0 then
          decide (isoDate (setDateBack z now n) ≤ e.date)
        else decide (isoDate (setDateBack z now n) < e.date)) := by
    intro z
    unfold getLastNDays
    apply List.filter_congr
    intro e _
    have := ge_cutoff_iff (setDateBack z now n) e.date
    by_cases h0 : setDateBack z now n % msPerDay = 0
    · simp only [h0, if_true] at this ⊢
      exact decide_eq_decide.2 this
    · simp only [h0, if_false] at this ⊢
      exact decide_eq_decide.2 this
  refine ⟨hgen zone, ?_⟩
  intro tz
  rw [hgen]
  obtain ⟨hd, hm⟩ := cutoff_fixed tz now n
  apply List.filter_congr
  intro e _
  rw [hd]
  by_cases h0 : now % msPerDay = 0
  · simp only [hm.2 h0, h0, if_true]
  · have h1 : ¬ setDateBack (fixedZone tz) now n % msPerDay = 0 := fun h => h0 (hm.1 h)
    simp only [h1, h0, if_false]

/-! ## Theorems. Double-precision arithmetic -/

/-- An integer is its own rounding. -/
theorem roundHalfEven_intCast (z : Int) : roundHalfEven (z : ℚ) = z := by
  unfold roundHalfEven
  simp

/-- For a non-positive exponent `pow2` is the inverse of a power of two. -/
theorem pow2_of_nonpos (e : Int) (h : e ≤ 0) :
    pow2 e = 1 / ((2 ^ (-e).toNat : Nat) : ℚ) := by
  unfold pow2
  by_cases h0 : 0 ≤ e
  · have : e = 0 := le_antisymm h h0
    subst this
    simp
  · simp [h0]

/-- The exponent found for a positive integer below `2 ^ 53` is at most 52. -/
theorem floorLog2_natCast_le (n : Nat) (h0 : n ≠ 0) (h : n < 2 ^ 53) :
    floorLog2 (n : ℚ) ≤ 52 := by
  have hk : Nat.log2 n < 53 := (Nat.log2_lt h0).2 h
  have h1 : Nat.log2 1 < 1 := (Nat.log2_lt (by decide)).2 (by decide)
  unfold floorLog2
  simp only [Rat.num_natCast, Rat.den_natCast, Int.natAbs_ofNat]
  split <;> omega

/-- Integers below `2 ^ 53` in absolute value are doubles. -/
theorem roundDouble_intCast (n : Int) (h : n.natAbs < 2 ^ 53) :
    roundDouble (n : ℚ) = n := by
  by_cases h0 : n = 0
  · subst h0
    simp [roundDouble]
  · have hn0 : n.natAbs ≠ 0 := by simpa using h0
    have habs : |(n : ℚ)| = ((n.natAbs : Nat) : ℚ) := by
      rw [Nat.cast_natAbs, Int.cast_abs]
    have he : floorLog2 |(n : ℚ)| - 52 ≤ 0 := by
      have := floorLog2_natCast_le n.natAbs hn0 h
      rw [habs]
      omega
    have hq0 : (n : ℚ) ≠ 0 := by exact_mod_cast h0
    have hj := pow2_of_nonpos _ he
    generalize (-(floorLog2 |(n : ℚ)| - 52)).toNat = j at hj
    have hp : ((2 ^ j : Nat) : ℚ) ≠ 0 := by positivity
    have hm : |(n : ℚ)| / (1 / ((2 ^ j : Nat) : ℚ)) = ((|n| * 2 ^ j : Int) : ℚ) := by
      push_cast
      field_simp
    unfold roundDouble
    rw [if_neg hq0, hj, hm, roundHalfEven_intCast]
    push_cast
    by_cases hneg : (n : ℚ) < 0
    · rw [if_pos hneg, abs_of_neg hneg]
      field_simp
    · rw [if_neg hneg, abs_of_nonneg (not_lt.1 hneg)]
      field_simp

/-- The double sum of two integers whose absolute values add up to less than
`2 ^ 53` is their exact sum. -/
theorem floatAdd_int (a x : Int) (h : a.natAbs + x.natAbs < 2 ^ 53) :
    floatAdd (a : ℚ) (jsonNumber (x : ℚ)) = ((a + x : Int) : ℚ) := by
  unfold floatAdd jsonNumber
  rw [roundDouble_intCast x (by omega), ← Int.cast_add,
    roundDouble_intCast (a + x) (lt_of_le_of_lt (Int.natAbs_add_le a x) h)]

/-- A reduce over entries whose field is always present is a reduce over
doubles. -/
theorem foldl_addField_some (g : Entry → ℚ) (entries : List Entry) (a : ℚ) :
    entries.foldl (fun sum e => addField sum (some (g e))) (some a) =
      some (entries.foldl (fun sum e => floatAdd sum (g e)) a) := by
  induction entries generalizing a with
  | nil => rfl
  | cons e es ih => rw [List.foldl_cons, List.foldl_cons]; exact ih _

/-- A reduce over an integer field whose absolute values add up to less than
`2 ^ 53` gives the exact sum. -/
theorem foldl_floatAdd_int (f : Entry → Int) (entries : List Entry) (a : Int)
    (h : a.natAbs + (entries.map (fun e => (f e).natAbs)).sum < 2 ^ 53) :
    entries.foldl (fun sum e => floatAdd sum (jsonNumber ((f e : Int) : ℚ))) (a : ℚ) =
      ((a + (entries.map f).sum : Int) : ℚ) := by
  induction entries generalizing a with
  | nil => simp
  | cons e es ih =>
    simp only [List.map_cons, List.sum_cons] at h
    rw [List.foldl_cons, floatAdd_int a (f e) (by omega), ih (a + f e)]
    · simp only [List.map_cons, List.sum_cons, add_assoc]
    · have := Int.natAbs_add_le a (f e)
      omega

/-- The absolute values of an integer field bounded by `b` add up to at most
`b` times the number of entries. -/
theorem sum_natAbs_le (f : Entry → Int) (b : Nat) (entries : List Entry)
    (h : ∀ e ∈ entries, (f e).natAbs ≤ b) :
    (entries.map (fun e => (f e).natAbs)).sum ≤ entries.length * b := by
  induction entries with
  | nil => simp
  | cons e es ih =>
    have h1 := h e (List.mem_cons_self _ _)
    have h2 := ih (fun x hx => h x (List.mem_cons_of_mem _ hx))
    simp only [List.map_cons, List.sum_cons, List.length_cons]
    rw [Nat.add_mul, Nat.one_mul]
    omega

/-- The cast of the sum of an integer field is the sum of the casts. -/
theorem cast_sum_map (f : Entry → Int) (entries : List Entry) :
    (((entries.map f).sum : Int) : ℚ) = (entries.map (fun e => ((f e : Int) : ℚ))).sum := by
  induction entries with
  | nil => simp
  | cons e es ih => simp [ih]

/-- On a non-empty list, the average of an integer field that is always present
and whose absolute values add up to less than `2 ^ 53` is the double nearest to
the arithmetic mean. -/
theorem averageBy_int (field : Entry → Option ℚ) (f : Entry → Int) (entries : List Entry)
    (h : entries ≠ []) (hf : ∀ e, field e = some (jsonNumber ((f e : Int) : ℚ)))
    (hs : (entries.map (fun e => (f e).natAbs)).sum < 2 ^ 53) :
    averageBy field entries =
      some (roundDouble ((entries.map (fun e => ((f e : Int) : ℚ))).sum / entries.length)) := by
  unfold averageBy
  have hlen : entries.length ≠ 0 := fun h0 => h (List.length_eq_zero.1 h0)
  have hfun : (fun sum e => addField sum (field e)) =
      (fun sum e => addField sum (some (jsonNumber ((f e : Int) : ℚ)))) := by
    funext sum e
    rw [hf]
  have h0 : (some 0 : Option ℚ) = some (((0 : Int) : ℚ)) := by simp
  rw [if_neg hlen, hfun, h0, foldl_addField_some,
    foldl_floatAdd_int f entries 0 (by simpa using hs)]
  simp only [Option.map_some', floatDiv, zero_add]
  rw [cast_sum_map]

/-- The function `pow2` is the power of two with an integer exponent. -/
theorem pow2_eq_zpow (e : Int) : pow2 e = (2 : ℚ) ^ e := by
  unfold pow2
  by_cases h : 0 ≤ e
  · rw [if_pos h]
    obtain ⟨n, rfl⟩ := Int.eq_ofNat_of_zero_le h
    simp
  · rw [if_neg h]
    have h1 : e = -(((-e).toNat : Nat) : Int) := by omega
    generalize (-e).toNat = n at h1
    subst h1
    simp

/-- For a positive number the exponent found is a lower bound. -/
theorem pow2_floorLog2_le (x : ℚ) (hx : 0 < x) : pow2 (floorLog2 x) ≤ x := by
  unfold floorLog2
  simp only
  split
  · assumption
  · have hnum : 0 < x.num := Rat.num_pos.2 hx
    have hn0 : x.num.natAbs ≠ 0 := by omega
    have ha : 2 ^ Nat.log2 x.num.natAbs ≤ x.num.natAbs := Nat.log2_self_le hn0
    have hb : x.den < 2 ^ (Nat.log2 x.den + 1) := Nat.lt_log2_self
    have hden : (0 : ℚ) < x.den := by exact_mod_cast x.den_pos
    have hxe : x = (x.num.natAbs : ℚ) / x.den := by
      have h1 : ((x.num.natAbs : Nat) : ℚ) = (x.num : ℚ) := by
        rw [Nat.cast_natAbs, abs_of_pos hnum]
      rw [h1]
      exact (Rat.num_div_den x).symm
    have haq : (2 : ℚ) ^ (Nat.log2 x.num.natAbs) ≤ (x.num.natAbs : ℚ) := by exact_mod_cast ha
    have hbq : (x.den : ℚ) ≤ (2 : ℚ) ^ (Nat.log2 x.den + 1) := by exact_mod_cast hb.le
    rw [pow2_eq_zpow]
    have he : (Nat.log2 x.num.natAbs : Int) - (Nat.log2 x.den : Int) - 1 =
        (Nat.log2 x.num.natAbs : Int) - ((Nat.log2 x.den + 1 : Nat) : Int) := by
      push_cast
      ring
    rw [he, zpow_sub₀ (by norm_num), zpow_natCast, zpow_natCast]
    conv_rhs => rw [hxe]
    exact div_le_div₀ (by positivity) haq hden hbq

/-- A positive number below a power of two has a smaller exponent. -/
theorem floorLog2_lt (x : ℚ) (hx : 0 < x) (E : Int) (h : x < pow2 E) : floorLog2 x < E := by
  have h1 := pow2_floorLog2_le x hx
  rw [pow2_eq_zpow] at h1 h
  have h2 : (2 : ℚ) ^ floorLog2 x < (2 : ℚ) ^ E := lt_of_le_of_lt h1 h
  exact (zpow_lt_zpow_iff_right₀ (by norm_num)).1 h2

/-- An integer below `2 ^ 53` in absolute value times a power of two is a
double. -/
theorem roundDouble_dyadic (m e : Int) (h : m.natAbs < 2 ^ 53) :
    roundDouble ((m : ℚ) * pow2 e) = (m : ℚ) * pow2 e := by
  by_cases h0 : m = 0
  · subst h0
    simp [roundDouble]
  · have hpe : (0 : ℚ) < pow2 e := by rw [pow2_eq_zpow]; positivity
    have hq0 : (m : ℚ) ≠ 0 := by exact_mod_cast h0
    have hx0 : (m : ℚ) * pow2 e ≠ 0 := mul_ne_zero hq0 hpe.ne'
    have habs : |(m : ℚ) * pow2 e| = |(m : ℚ)| * pow2 e := by
      rw [abs_mul, abs_of_pos hpe]
    have hm53 : |(m : ℚ)| < (2 : ℚ) ^ (53 : Int) := by
      have : ((m.natAbs : Nat) : ℚ) < ((2 ^ 53 : Nat) : ℚ) := by exact_mod_cast h
      rw [Nat.cast_natAbs, Int.cast_abs] at this
      have h2 : ((2 : ℚ) ^ (53 : Int)) = ((2 ^ 53 : Nat) : ℚ) := by norm_num
      rw [h2]
      exact this
    have hlt : |(m : ℚ) * pow2 e| < pow2 (53 + e) := by
      rw [habs, pow2_eq_zpow, pow2_eq_zpow, zpow_add₀ (by norm_num)]
      rw [pow2_eq_zpow] at hpe
      exact mul_lt_mul_of_pos_right hm53 hpe
    have hfl := floorLog2_lt _ (abs_pos.2 hx0) _ hlt
    obtain ⟨j, hj⟩ : ∃ j : Nat, e = floorLog2 |(m : ℚ) * pow2 e| - 52 + j :=
      ⟨(e - (floorLog2 |(m : ℚ) * pow2 e| - 52)).toNat, by omega⟩
    unfold roundDouble
    rw [if_neg hx0]
    generalize floorLog2 |(m : ℚ) * pow2 e| - 52 = E at hj ⊢
    have hE : (0 : ℚ) < pow2 E := by rw [pow2_eq_zpow]; positivity
    have hsplit : pow2 e = (2 : ℚ) ^ j * pow2 E := by
      rw [pow2_eq_zpow, pow2_eq_zpow, hj, zpow_add₀ (by norm_num), zpow_natCast, mul_comm]
    have hm : |(m : ℚ) * pow2 e| / pow2 E = ((|m| * 2 ^ j : Int) : ℚ) := by
      rw [habs, hsplit]
      push_cast
      field_simp
      ring
    rw [hm, roundHalfEven_intCast, hsplit]
    push_cast
    have hneg : ((m : ℚ) * ((2 : ℚ) ^ j * pow2 E) < 0) ↔ (m : ℚ) < 0 := by
      constructor
      · intro hlt0
        by_contra hge
        have : 0 ≤ (m : ℚ) * ((2 : ℚ) ^ j * pow2 E) :=
          mul_nonneg (not_lt.1 hge) (by positivity)
        linarith
      · intro hlt0
        exact mul_neg_of_neg_of_pos hlt0 (by positivity)
    by_cases hn : (m : ℚ) < 0
    · rw [if_pos (hneg.2 hn), abs_of_neg hn]
      ring
    · rw [if_neg (fun hh => hn (hneg.1 hh)), abs_of_nonneg (not_lt.1 hn)]
      ring

/-- The double sum of two halves of integers whose absolute values add up to
less than `2 ^ 53` is their exact sum. -/
theorem floatAdd_half (a x : Int) (h : a.natAbs + x.natAbs < 2 ^ 53) :
    floatAdd ((a : ℚ) / 2) (jsonNumber ((x : ℚ) / 2)) = ((a + x : Int) : ℚ) / 2 := by
  have hp : pow2 (-1) = 1 / 2 := by
    rw [pow2_eq_zpow]
    norm_num
  have hd : ∀ n : Int, n.natAbs < 2 ^ 53 → roundDouble ((n : ℚ) / 2) = (n : ℚ) / 2 := by
    intro n hn
    have := roundDouble_dyadic n (-1) hn
    rw [hp] at this
    rw [div_eq_mul_one_div]
    exact this
  unfold floatAdd jsonNumber
  rw [hd x (by omega), ← add_div, ← Int.cast_add,
    hd (a + x) (lt_of_le_of_lt (Int.natAbs_add_le a x) h)]

/-- A reduce over a field of halves of integers whose absolute values add up to
less than `2 ^ 53` gives the exact sum. -/
theorem foldl_floatAdd_half (f : Entry → Int) (entries : List Entry) (a : Int)
    (h : a.natAbs + (entries.map (fun e => (f e).natAbs)).sum < 2 ^ 53) :
    entries.foldl (fun sum e => floatAdd sum (jsonNumber (((f e : Int) : ℚ) / 2)))
        ((a : ℚ) / 2) =
      ((a + (entries.map f).sum : Int) : ℚ) / 2 := by
  induction entries generalizing a with
  | nil => simp
  | cons e es ih =>
    simp only [List.map_cons, List.sum_cons] at h
    rw [List.foldl_cons, floatAdd_half a (f e) (by omega), ih (a + f e)]
    · simp only [List.map_cons, List.sum_cons, add_assoc]
    · have := Int.natAbs_add_le a (f e)
      omega

/-- On a non-empty list, the average of a field that is always half an integer,
the absolute values of the integers adding up to less than `2 ^ 53`, is the
double nearest to the arithmetic mean. -/
theorem averageBy_half (g : Entry → ℚ) (f : Entry → Int) (entries : List Entry)
    (h : entries ≠ []) (hf : ∀ e ∈ entries, g e = ((f e : Int) : ℚ) / 2)
    (hs : (entries.map (fun e => (f e).natAbs)).sum < 2 ^ 53) :
    averageBy (fun e => some (jsonNumber (g e))) entries =
      some (roundDouble ((entries.map g).sum / entries.length)) := by
  unfold averageBy
  have hlen : entries.length ≠ 0 := fun h0 => h (List.length_eq_zero.1 h0)
  have hfold : entries.foldl (fun sum e => floatAdd sum (jsonNumber (g e))) 0 =
      entries.foldl (fun sum e => floatAdd sum (jsonNumber (((f e : Int) : ℚ) / 2))) 0 := by
    apply List.foldl_ext
    intro sum e he
    beta_reduce
    rw [hf e he]
  have h0 : (0 : ℚ) = ((0 : Int) : ℚ) / 2 := by simp
  have hall : ∀ l : List Entry, (∀ e ∈ l, g e = ((f e : Int) : ℚ) / 2) →
      (l.map g).sum = (((l.map f).sum : Int) : ℚ) / 2 := by
    intro l
    induction l with
    | nil => intro _; simp
    | cons e es ih =>
      intro hl
      simp only [List.map_cons, List.sum_cons, Int.cast_add]
      rw [ih (fun x hx => hl x (List.mem_cons_of_mem _ hx)), hl e (List.mem_cons_self _ _),
        add_div]
  have hsum := hall entries hf
  rw [if_neg hlen, foldl_addField_some, hfold, h0,
    foldl_floatAdd_half f entries 0 (by simpa using hs)]
  simp only [Option.map_some', floatDiv, zero_add]
  rw [hsum]

/-! ## Theorems. Averages -/

/-- Entries with numbers of ordinary size have moods and stress levels whose
absolute values add up to less than `2 ^ 53`. -/
theorem plainNumbers_sums (entries : List Entry) (hp : PlainNumbers entries) :
    (entries.map (fun e => e.mood.natAbs)).sum < 2 ^ 53 ∧
      (entries.map (fun e => (e.stress.getD 0).natAbs)).sum < 2 ^ 53 ∧
      ∀ e ∈ entries, e.stress = some (e.stress.getD 0) := by
  obtain ⟨hlen, hall⟩ := hp
  have h1 : (entries.map (fun e => e.mood.natAbs)).sum ≤ entries.length * 2 ^ 20 :=
    sum_natAbs_le (fun e => e.mood) (2 ^ 20) entries (fun e he => (hall e he).1)
  have h2 : (entries.map (fun e => (e.stress.getD 0).natAbs)).sum ≤
      entries.length * 2 ^ 20 :=
    sum_natAbs_le (fun e => e.stress.getD 0) (2 ^ 20) entries (fun e he => by
      obtain ⟨s, hs, hb⟩ := (hall e he).2.2
      simpa [hs] using hb)
  have hmul : entries.length * 2 ^ 20 < 2 ^ 53 := by
    have : entries.length * 2 ^ 20 < 2 ^ 32 * 2 ^ 20 :=
      Nat.mul_lt_mul_of_pos_right hlen (by norm_num)
    calc entries.length * 2 ^ 20 < 2 ^ 32 * 2 ^ 20 := this
      _ < 2 ^ 53 := by norm_num
  refine ⟨by omega, by omega, ?_⟩
  intro e he
  obtain ⟨s, hs, _⟩ := (hall e he).2.2
  simp [hs]

/-- Entries with numbers of ordinary size whose sleep values are multiples of
one half: each sleep value is half an integer, and the absolute values of
these integers add up to less than `2 ^ 53`. -/
theorem plainNumbers_half_sleep (entries : List Entry) (hp : PlainNumbers entries)
    (hh : ∀ e ∈ entries, ∃ k : Int, e.sleep = k / 2) :
    (∀ e ∈ entries, e.sleep = ((⌊e.sleep * 2⌋ : Int) : ℚ) / 2) ∧
      (entries.map (fun e => (⌊e.sleep * 2⌋).natAbs)).sum < 2 ^ 53 := by
  obtain ⟨hlen, hall⟩ := hp
  have hfloor : ∀ e ∈ entries, ∃ k : Int, e.sleep = k / 2 ∧ ⌊e.sleep * 2⌋ = k := by
    intro e he
    obtain ⟨k, hk⟩ := hh e he
    refine ⟨k, hk, ?_⟩
    rw [hk, div_mul_cancel₀ _ (by norm_num : (2 : ℚ) ≠ 0)]
    exact Int.floor_intCast k
  have hb : ∀ e ∈ entries, (⌊e.sleep * 2⌋).natAbs ≤ 2 ^ 21 := by
    intro e he
    obtain ⟨k, hk, hf⟩ := hfloor e he
    have habs : |e.sleep| ≤ 2 ^ 20 := by
      rcases (hall e he).2.1 with h0 | ⟨_, h1⟩
      · rw [h0]
        norm_num
      · exact h1
    rw [hf]
    have hq : |(k : ℚ)| ≤ 2 ^ 21 := by
      have hk2 : (k : ℚ) = e.sleep * 2 := by
        rw [hk, div_mul_cancel₀ _ (by norm_num : (2 : ℚ) ≠ 0)]
      rw [hk2, abs_mul]
      have : |(2 : ℚ)| = 2 := abs_of_pos (by norm_num)
      rw [this]
      linarith
    have hz : |k| ≤ 2 ^ 21 := by
      have : ((|k| : Int) : ℚ) ≤ ((2 ^ 21 : Int) : ℚ) := by
        rw [Int.cast_abs]
        simpa using hq
      exact_mod_cast this
    rw [Int.abs_eq_natAbs] at hz
    omega
  have h1 : (entries.map (fun e => (⌊e.sleep * 2⌋).natAbs)).sum ≤ entries.length * 2 ^ 21 :=
    sum_natAbs_le (fun e => ⌊e.sleep * 2⌋) (2 ^ 21) entries hb
  have hmul : entries.length * 2 ^ 21 < 2 ^ 53 := by
    calc entries.length * 2 ^ 21 < 2 ^ 32 * 2 ^ 21 :=
          Nat.mul_lt_mul_of_pos_right hlen (by norm_num)
      _ = 2 ^ 53 := by norm_num
  refine ⟨?_, by omega⟩
  intro e he
  obtain ⟨k, hk, hf⟩ := hfloor e he
  rw [hf]
  exact hk

/-- C7 (counterexample): for three entries with moods 1, 1 and 2 the mood
value of `displaySummaries` before formatting is the double nearest to 4/3,
which is not 4/3; and for twenty entries with moods 7 and nineteen times 6
(mean 121/20) and stress levels adding up to 29 (mean 29/20) the page shows
6.0 and 1.4, the doubles lying just below 6.05 and 1.45. -/
theorem displaySummaries_rounds_means :
    (summaryMeans oneOneTwo).1 = some (roundDouble (4 / 3)) ∧
      roundDouble (4 / 3) ≠ 4 / 3 ∧
      (twentyEntries.map (fun e => (e.mood : ℚ))).sum / twentyEntries.length = 121 / 20 ∧
      (summaryMeans twentyEntries).1 ≠ some (121 / 20) ∧
      (displaySummaries twentyEntries).avgMood = "6.0/10" ∧
      (displaySummaries twentyEntries).avgStress = "1.4/4" := by
  decide!

/-- C7 (amended): for a non-empty list of entries with numbers of ordinary
size, the mood and stress values of `displaySummaries` before formatting are
the doubles nearest to the arithmetic means, the sleep value is the double
quotient by the count of the double sum of the sleep values taken left to
right, which is the double nearest to the arithmetic mean when every sleep
value is a multiple of one half, and the page shows each with `toFixed(1)`;
for the entries (mood 4, sleep 6, stress 2) and (mood 8, sleep 8, stress 1)
the values are 6, 7 and 3/2, shown as 6.0, 7.0 and 1.5. -/
theorem displaySummaries_means (entries : List Entry) (h : entries ≠ [])
    (hp : PlainNumbers entries) :
    (summaryMeans entries =
        (some (roundDouble
          ((entries.map (fun e => (e.mood : ℚ))).sum / entries.length)),
         some (floatDiv
          (entries.foldl (fun sum e => floatAdd sum (jsonNumber e.sleep)) 0) entries.length),
         some (roundDouble
          ((entries.map (fun e => ((e.stress.getD 0 : Int) : ℚ))).sum / entries.length))) ∧
      displaySummaries entries =
        { avgMood := toFixed1 (roundDouble
            ((entries.map (fun e => (e.mood : ℚ))).sum / entries.length)) ++ "/10",
          avgSleep := toFixed1 (floatDiv
            (entries.foldl (fun sum e => floatAdd sum (jsonNumber e.sleep)) 0)
            entries.length) ++ " hrs",
          avgStress := toFixed1 (roundDouble
            ((entries.map (fun e => ((e.stress.getD 0 : Int) : ℚ))).sum / entries.length))
            ++ "/4" }) ∧
      ((∀ e ∈ entries, ∃ k : Int, e.sleep = k / 2) →
        (summaryMeans entries).2.1 =
          some (roundDouble ((entries.map (fun e => e.sleep)).sum / entries.length))) ∧
      summaryMeans [mondayA, mondayB] = (some 6, some 7, some (3 / 2)) ∧
      displaySummaries [mondayA, mondayB] =
        { avgMood := "6.0/10", avgSleep := "7.0 hrs", avgStress := "1.5/4" } := by
  obtain ⟨hmood, hstress, hpresent⟩ := plainNumbers_sums entries hp
  have hlen : entries.length ≠ 0 := fun h0 => h (List.length_eq_zero.1 h0)
  have hsleep : averageBy (fun e => some (jsonNumber e.sleep)) entries =
      some (floatDiv
        (entries.foldl (fun sum e => floatAdd sum (jsonNumber e.sleep)) 0) entries.length) := by
    unfold averageBy
    rw [if_neg hlen, foldl_addField_some]
    rfl
  have hst : averageBy (fun e => e.stress.map (fun (s : Int) => jsonNumber s)) entries =
      averageBy (fun e => some (jsonNumber ((e.stress.getD 0 : Int) : ℚ))) entries := by
    unfold averageBy
    rw [if_neg hlen, if_neg hlen]
    congr 1
    apply List.foldl_ext
    intro sum e he
    beta_reduce
    rw [hpresent e he]
    rfl
  have hm : summaryMeans entries =
      (some (roundDouble
        ((entries.map (fun e => (e.mood : ℚ))).sum / entries.length)),
       some (floatDiv
        (entries.foldl (fun sum e => floatAdd sum (jsonNumber e.sleep)) 0) entries.length),
       some (roundDouble
        ((entries.map (fun e => ((e.stress.getD 0 : Int) : ℚ))).sum / entries.length))) := by
    unfold summaryMeans
    rw [averageBy_int _ (fun e => e.mood) entries h (fun _ => rfl) hmood, hsleep, hst,
      averageBy_int _ (fun e => e.stress.getD 0) entries h (fun _ => rfl) hstress]
  refine ⟨⟨hm, ?_⟩, ?_, by decide!, by decide!⟩
  · unfold displaySummaries
    rw [hm]
    rfl
  · intro hh
    obtain ⟨hhalf, hsum⟩ := plainNumbers_half_sleep entries hp hh
    exact averageBy_half (fun e => e.sleep) (fun e => ⌊e.sleep * 2⌋) entries h hhalf hsum

/-- Instance of C7 (amended) at the two-entry example. -/
theorem displaySummaries_means_witness :
    [mondayA, mondayB] ≠ [] ∧ PlainNumbers [mondayA, mondayB] ∧
      (summaryMeans [mondayA, mondayB]).1 =
        some (roundDouble (([mondayA, mondayB].map (fun e => (e.mood : ℚ))).sum / 2)) := by
  have hp : PlainNumbers [mondayA, mondayB] := by
    refine ⟨by decide, ?_⟩
    intro e he
    rcases List.mem_cons.1 he with h | h
    · subst h
      exact ⟨by decide, Or.inr ⟨by decide!, by decide!⟩, 2, rfl, by decide⟩
    · rw [List.mem_singleton.1 h]
      exact ⟨by decide, Or.inr ⟨by decide!, by decide!⟩, 1, rfl, by decide⟩
  exact ⟨by decide, hp,
    by simpa using congrArg Prod.fst (displaySummaries_means [mondayA, mondayB] (by decide) hp).1.1⟩

/-! ## Theorems. Chart series -/

/-- C8: `createCharts` does not sort, it reverses: for every list the series is
the input reversed, so given two entries of distinct dates with the older one
first it puts the newer one first, and the series and its mood sequence are
not ascending by date. -/
theorem createCharts_reverses_ascending_input :
    (∀ entries : List Entry, (createCharts entries).sortedEntries = entries.reverse) ∧
      ([mondayA, mondayB].map Entry.date).Nodup ∧
      (createCharts [mondayA, mondayB]).sortedEntries = [mondayB, mondayA] ∧
      (createCharts [mondayA, mondayB]).moods = [8, 4] ∧
      ¬ (createCharts [mondayA, mondayB]).sortedEntries.Pairwise
          (fun a b => a.date < b.date) :=
  ⟨fun _ => rfl, by decide, by decide, by decide, by decide⟩

/-- For entries ordered descending by date, as the store keeps them, the
series of `createCharts` is a permutation of the input ordered ascending by
date, and the mood, sleep and stress sequences follow it. -/
theorem createCharts_of_descending (entries : List Entry)
    (h : entries.Pairwise (fun a b => b.date < a.date)) :
    (createCharts entries).sortedEntries.Perm entries ∧
      (createCharts entries).sortedEntries.Pairwise (fun a b => a.date < b.date) ∧
      (createCharts entries).moods =
        (createCharts entries).sortedEntries.map (fun e => e.mood) ∧
      (createCharts entries).sleeps =
        (createCharts entries).sortedEntries.map (fun e => e.sleep) ∧
      (createCharts entries).stresses =
        (createCharts entries).sortedEntries.map (fun e => e.stress) := by
  refine ⟨List.reverse_perm entries, ?_, rfl, rfl, rfl⟩
  exact List.pairwise_reverse.2 h

/-- Instance of `createCharts_of_descending` at two entries, newer first. -/
theorem createCharts_of_descending_witness :
    [mondayB, mondayA].Pairwise (fun a b => b.date < a.date) ∧
      (createCharts [mondayB, mondayA]).sortedEntries.Pairwise
        (fun a b => a.date < b.date) :=
  ⟨by decide, (createCharts_of_descending [mondayB, mondayA] (by decide)).2.1⟩

/-- The list `loadAnalytics` passes to `createCharts`, read from a storage
built by saves alone, always yields an ascending series. -/
theorem createCharts_of_saved_store (zone : Zone) (now : Int) (es : List Entry) :
    (createCharts (getLastNDays zone now 30
        (es.foldl (fun s e => saveEntry e s) none))).sortedEntries.Pairwise
      (fun a b => a.date < b.date) := by
  have h := foldl_saveEntry_sorted es none (by simp [getAllEntries])
  unfold createCharts getLastNDays
  exact List.pairwise_reverse.2 (h.filter _)

/-! ## Theorems. Weekly summary -/

/-- Lookup in a list whose values were mapped with the keys kept. -/
theorem lookup_map_keep_key (f : String × DayBucket → DayBucket) (k : String)
    (l : List (String × DayBucket)) :
    (l.map (fun kv => (kv.1, f kv))).lookup k = (l.lookup k).map (fun b => f (k, b)) := by
  induction l with
  | nil => rfl
  | cons a l ih =>
    obtain ⟨a1, a2⟩ := a
    by_cases h : k = a1
    · subst h
      simp [List.lookup_cons]
    · have hb : (k == a1) = false := by simpa using h
      simp only [List.map_cons, List.lookup_cons, hb]
      exact ih

/-- Lookup in a list with one pair appended at the end. -/
theorem lookup_append_single (k k0 : String) (b0 : DayBucket)
    (l : List (String × DayBucket)) :
    (l ++ [(k0, b0)]).lookup k =
      match l.lookup k with
      | some b => some b
      | none => if k = k0 then some b0 else none := by
  induction l with
  | nil =>
    by_cases h : k = k0
    · subst h
      simp [List.lookup_cons]
    · have hb : (k == k0) = false := by simpa using h
      simp [List.lookup_cons, hb, h]
  | cons a l ih =>
    obtain ⟨a1, a2⟩ := a
    by_cases h : k = a1
    · subst h
      simp [List.lookup_cons]
    · have hb : (k == a1) = false := by simpa using h
      simp only [List.cons_append, List.lookup_cons, hb]
      exact ih

/-- One step of the grouping loop seen through lookup: the bucket of the day name
of the entry receives its values, the other buckets are untouched. -/
theorem lookup_addToSummary (zone : Zone) (s : List (String × DayBucket)) (e : Entry)
    (day : String) :
    (addToSummary zone s e).lookup day =
      if day = dayNameOf zone e.date then
        some (pushEntry e ((s.lookup day).getD (bucketOf [])))
      else s.lookup day := by
  have hf : (fun kv : String × DayBucket =>
      if kv.1 == dayNameOf zone e.date then
        (kv.1, ({ moods := kv.2.moods ++ [e.mood], sleeps := kv.2.sleeps ++ [e.sleep],
                  stresses := kv.2.stresses ++ [e.stress],
                  count := kv.2.count + 1 } : DayBucket))
      else kv) =
      (fun kv => (kv.1, if kv.1 = dayNameOf zone e.date then pushEntry e kv.2 else kv.2)) := by
    funext kv
    by_cases h : kv.1 = dayNameOf zone e.date
    · simp [h, pushEntry]
    · simp [h]
  unfold addToSummary
  simp only [hf]
  rw [lookup_map_keep_key]
  by_cases hd : day = dayNameOf zone e.date
  · subst hd
    simp only [if_true]
    cases hl : s.lookup (dayNameOf zone e.date) with
    | none =>
      simp only [Option.isNone_none, if_true]
      rw [lookup_append_single, hl]
      simp [bucketOf]
    | some b =>
      simp [hl]
  · simp only [hd, if_false]
    by_cases hn : (s.lookup (dayNameOf zone e.date)).isNone = true
    · simp only [hn, if_true]
      rw [lookup_append_single]
      cases hl : s.lookup day <;> simp [hl, hd]
    · simp only [hn]
      cases hl : s.lookup day <;> simp [hl, hd]

/-- Grouping a list with one more entry at the end is one more loop step. -/
theorem weeklyGroups_append (zone : Zone) (es : List Entry) (e : Entry) :
    weeklyGroups zone (es ++ [e]) = addToSummary zone (weeklyGroups zone es) e := by
  simp [weeklyGroups, List.foldl_append]

/-- Pushing an entry onto the bucket of a list gives the bucket of the longer list. -/
theorem pushEntry_bucketOf (e : Entry) (es : List Entry) :
    pushEntry e (bucketOf es) = bucketOf (es ++ [e]) := by
  simp [pushEntry, bucketOf]

/-- The grouping loop of `displayWeeklySummary` leaves under each day name the
bucket of the entries whose local weekday has that name, in input order, and
no bucket for a day name without entries. -/
theorem weeklyGroups_lookup (zone : Zone) (entries : List Entry) (day : String) :
    (weeklyGroups zone entries).lookup day =
      if entriesOnDay zone day entries = [] then none
      else some (bucketOf (entriesOnDay zone day entries)) := by
  induction entries using List.reverseRecOn with
  | nil => simp [weeklyGroups, entriesOnDay]
  | append_singleton es e ih =>
    rw [weeklyGroups_append, lookup_addToSummary, ih]
    by_cases hd : day = dayNameOf zone e.date
    · have hon : entriesOnDay zone day (es ++ [e]) = entriesOnDay zone day es ++ [e] := by
        simp [entriesOnDay, List.filter_append, hd]
      rw [if_pos hd, hon]
      by_cases hnil : entriesOnDay zone day es = []
      · simp [hnil, pushEntry_bucketOf]
      · simp [hnil, pushEntry_bucketOf]
    · have hon : entriesOnDay zone day (es ++ [e]) = entriesOnDay zone day es := by
        simp [entriesOnDay, List.filter_append, Ne.symm hd]
      rw [if_neg hd, hon]

/-- The moods of a sublist selected by a test add up to at most the moods of
the whole list. -/
theorem sum_natAbs_filter_le (f : Entry → Int) (p : Entry → Bool) (entries : List Entry) :
    ((entries.filter p).map (fun e => (f e).natAbs)).sum ≤
      (entries.map (fun e => (f e).natAbs)).sum := by
  induction entries with
  | nil => simp
  | cons e es ih =>
    by_cases hp : p e = true
    · simp only [List.filter_cons_of_pos hp, List.map_cons, List.sum_cons]
      omega
    · simp only [List.filter_cons_of_neg hp, List.map_cons, List.sum_cons]
      omega

/-- The mean computed for a bucket whose moods add up to less than `2 ^ 53` in
absolute value is the double nearest to the arithmetic mean. -/
theorem bucketOf_mean (entries : List Entry)
    (h : (entries.map (fun e => e.mood.natAbs)).sum < 2 ^ 53) :
    floatDiv (reduceSum ((bucketOf entries).moods.map (fun (m : Int) => jsonNumber m)))
        (bucketOf entries).moods.length = meanMood entries := by
  have h1 : (bucketOf entries).moods = entries.map (fun e => e.mood) := rfl
  have h0 : (0 : ℚ) = ((0 : Int) : ℚ) := by simp
  rw [h1, List.map_map, List.length_map]
  unfold reduceSum
  rw [List.foldl_map, h0]
  have h2 := foldl_floatAdd_int (fun e => e.mood) entries 0 (by simpa using h)
  simp only [Function.comp] at h2 ⊢
  rw [h2, zero_add, cast_sum_map]
  rfl

/-- What `displayWeeklySummary` renders in any zone, for entries whose moods
add up to less than `2 ^ 53` in absolute value: going through Sun, Mon, Tue,
Wed, Thu, Fri, Sat in this order, one element for each day name that is the
local weekday of at least one entry, showing the double nearest to the mean
mood of those entries with one decimal and the emoji of the shown value. -/
theorem displayWeeklySummary_eq (zone : Zone) (entries : List Entry)
    (h : (entries.map (fun e => e.mood.natAbs)).sum < 2 ^ 53) :
    displayWeeklySummary zone entries =
      daysOrder.filterMap (fun day =>
        if entriesOnDay zone day entries = [] then none
        else some
          { name := day,
            emoji := getMoodEmoji (fixedValue (meanMood (entriesOnDay zone day entries))),
            avgMood := toFixed1 (meanMood (entriesOnDay zone day entries)) }) := by
  have hr : renderDay (weeklyGroups zone entries) = (fun day =>
      if entriesOnDay zone day entries = [] then none
      else some
        { name := day,
          emoji := getMoodEmoji (fixedValue (meanMood (entriesOnDay zone day entries))),
          avgMood := toFixed1 (meanMood (entriesOnDay zone day entries)) }) := by
    funext day
    unfold renderDay
    rw [weeklyGroups_lookup]
    by_cases hnil : entriesOnDay zone day entries = []
    · simp [hnil]
    · have hsum : ((entriesOnDay zone day entries).map (fun e => e.mood.natAbs)).sum < 2 ^ 53 :=
        lt_of_le_of_lt (sum_natAbs_filter_le (fun e => e.mood) _ entries) h
      simp only [hnil, if_false, bucketOf_mean _ hsum]
  show daysOrder.filterMap (renderDay (weeklyGroups zone entries)) = _
  rw [hr]

/-- A mean that lies just below a tie in doubles: twenty Monday entries, one
with mood 3 and nineteen with mood 2, have the mean 41/20, whose nearest double
is below 2.05, so the page shows 2.0 with the emoji of the lowest bucket, where
the exact mean would be shown as 2.1. -/
theorem displayWeeklySummary_below_tie :
    displayWeeklySummary 0
        (plainEntry (dateOf 2024 1 1) 3 8 2 ::
          List.replicate 19 (plainEntry (dateOf 2024 1 8) 2 8 2)) =
        [{ name := "Mon", emoji := "😢", avgMood := "2.0" }] ∧
      toFixed1 (41 / 20) = "2.1" := by
  decide!

/-- At or east of UTC, with an offset below one day, the day name of a stored
date is the name of its own weekday. -/
theorem dayNameOf_east (tz date : Int) (h0 : 0 ≤ tz) (h1 : tz < msPerDay) :
    dayNameOf tz date = dayNameOf 0 date := by
  have h : localDate tz (parseDate date) = localDate 0 (parseDate date) := by
    show (parseDate date + tz) / msPerDay = (parseDate date + 0) / msPerDay
    unfold parseDate
    unfold msPerDay at h1 ⊢
    omega
  unfold dayNameOf weekday
  rw [h]

/-- C9: in a zone at UTC-05:00 two entries dated Monday 2024-01-01 and Monday
2024-01-08 with moods 4 and 8 are rendered as one bucket named Sun with mean
6.0, while in UTC the same entries give the bucket Mon. -/
theorem displayWeeklySummary_west_of_utc :
    dayNameOf 0 mondayA.date = "Mon" ∧ dayNameOf 0 mondayB.date = "Mon" ∧
      displayWeeklySummary estOffset [mondayA, mondayB] =
        [{ name := "Sun", emoji := "😐", avgMood := "6.0" }] ∧
      displayWeeklySummary 0 [mondayA, mondayB] =
        [{ name := "Mon", emoji := "😐", avgMood := "6.0" }] ∧
      (weeklyGroups 0 [mondayA, mondayB]).map (fun kv => (kv.1, kv.2.moods, kv.2.count)) =
        [("Mon", [4, 8], 2)] := by
  decide!

/-! ## Theorems. Mood buckets -/

/-- C10: `getMoodEmoji` returns the very-low emoji up to 2, the low one up to
4, the neutral one up to 6, the good one up to 8 and the very-good one above;
the five are pairwise distinct, mood 6 is neutral and mood 7 is good, and
`updateMoodValue` selects the index of the same bucket for the same value. -/
theorem getMoodEmoji_buckets (m : ℚ) :
    (m ≤ 2 → getMoodEmoji m = "😢" ∧ updateMoodValue m = 0) ∧
      (2 < m → m ≤ 4 → getMoodEmoji m = "😟" ∧ updateMoodValue m = 1) ∧
      (4 < m → m ≤ 6 → getMoodEmoji m = "😐" ∧ updateMoodValue m = 2) ∧
      (6 < m → m ≤ 8 → getMoodEmoji m = "🙂" ∧ updateMoodValue m = 3) ∧
      (8 < m → getMoodEmoji m = "😊" ∧ updateMoodValue m = 4) ∧
      ["😢", "😟", "😐", "🙂", "😊"].get? (updateMoodValue m) = some (getMoodEmoji m) ∧
      ["😢", "😟", "😐", "🙂", "😊"].Nodup ∧
      getMoodEmoji 6 = "😐" ∧ getMoodEmoji 7 = "🙂" := by
  refine ⟨?_, ?_, ?_, ?_, ?_, ?_, by decide, by decide!, by decide!⟩
  · intro h
    simp [getMoodEmoji, updateMoodValue, h]
  · intro h1 h2
    simp [getMoodEmoji, updateMoodValue, not_le.2 h1, h2]
  · intro h1 h2
    have : ¬ m ≤ 2 := not_le.2 (by linarith)
    simp [getMoodEmoji, updateMoodValue, not_le.2 h1, h2, this]
  · intro h1 h2
    have : ¬ m ≤ 2 := not_le.2 (by linarith)
    have : ¬ m ≤ 4 := not_le.2 (by linarith)
    simp [getMoodEmoji, updateMoodValue, not_le.2 h1, h2, *]
  · intro h1
    have : ¬ m ≤ 2 := not_le.2 (by linarith)
    have : ¬ m ≤ 4 := not_le.2 (by linarith)
    have : ¬ m ≤ 6 := not_le.2 (by linarith)
    simp [getMoodEmoji, updateMoodValue, not_le.2 h1, *]
  · unfold getMoodEmoji updateMoodValue
    split_ifs <;> rfl

/-- Instance of C10 at mood 6. -/
theorem getMoodEmoji_buckets_witness :
    (4 : ℚ) < 6 ∧ (6 : ℚ) ≤ 6 ∧ getMoodEmoji 6 = "😐" ∧ updateMoodValue 6 = 2 :=
  ⟨by norm_num, by norm_num,
    (getMoodEmoji_buckets 6).2.2.1 (by norm_num) (by norm_num)⟩

/-! ## Theorems. Wellness suggestion -/

/-- The category is one of the three keys of `suggestions`. -/
theorem suggestionCategory_cases (m : ℚ) :
    suggestionCategory m = "low" ∨ suggestionCategory m = "moderate" ∨
      suggestionCategory m = "high" := by
  unfold suggestionCategory
  split_ifs <;> simp

/-- Each of the three pools holds exactly four messages. -/
theorem suggestions_length (m : ℚ) : (suggestions (suggestionCategory m)).length = 4 := by
  rcases suggestionCategory_cases m with h | h | h <;> rw [h] <;> decide

/-- For a draw in `[0, 1)` the index into a pool of four is `⌊4 * r⌋`, one of
0, 1, 2, 3. -/
theorem suggestionIndex_bounds (m r : ℚ) (h0 : 0 ≤ r) (h1 : r < 1) :
    suggestionIndex (suggestionCategory m) r = ⌊4 * r⌋ ∧ 0 ≤ ⌊4 * r⌋ ∧ ⌊4 * r⌋ ≤ 3 := by
  have hidx : suggestionIndex (suggestionCategory m) r = ⌊4 * r⌋ := by
    unfold suggestionIndex
    rw [suggestions_length, mul_comm]
    norm_num
  have hlo : 0 ≤ ⌊4 * r⌋ := Int.floor_nonneg.2 (by linarith)
  have hhi : ⌊4 * r⌋ < 4 := Int.floor_lt.2 (by push_cast; linarith)
  exact ⟨hidx, hlo, by omega⟩

/-- C11: `showWellnessSuggestion` selects the bucket low for mood up to 3, high
for mood from 7 and moderate otherwise; each pool holds exactly 4 messages, and
for a draw `r` in `[0, 1)` the message shown is the element of index
`⌊4 * r⌋`, within 0..3, of the selected pool; mood 6 selects moderate and mood
7 selects high. -/
theorem showWellnessSuggestion_from_pool (m r : ℚ) (activities : List String)
    (h0 : 0 ≤ r) (h1 : r < 1) :
    (m ≤ 3 → suggestionCategory m = "low") ∧
      (7 ≤ m → suggestionCategory m = "high") ∧
      (3 < m → m < 7 → suggestionCategory m = "moderate") ∧
      (suggestions "low").length = 4 ∧ (suggestions "moderate").length = 4 ∧
      (suggestions "high").length = 4 ∧
      0 ≤ ⌊4 * r⌋ ∧ ⌊4 * r⌋ ≤ 3 ∧
      (∃ msg, showWellnessSuggestion m activities r = some msg ∧
        (suggestions (suggestionCategory m)).get? (⌊4 * r⌋).toNat = some msg ∧
        msg ∈ suggestions (suggestionCategory m)) ∧
      suggestionCategory 6 = "moderate" ∧ suggestionCategory 7 = "high" := by
  obtain ⟨hidx, hlo, hhi⟩ := suggestionIndex_bounds m r h0 h1
  have hlen := suggestions_length m
  have hlt : (⌊4 * r⌋).toNat < (suggestions (suggestionCategory m)).length := by
    rw [hlen]
    omega
  refine ⟨?_, ?_, ?_, by decide, by decide, by decide, hlo, hhi, ?_, by decide!, by decide!⟩
  · intro h
    simp [suggestionCategory, h]
  · intro h
    have h3 : ¬ m ≤ 3 := not_le.2 (by linarith)
    simp [suggestionCategory, h, h3]
  · intro h3 h7
    simp [suggestionCategory, not_le.2 h3, not_le.2 h7]
  · refine ⟨(suggestions (suggestionCategory m)).get ⟨(⌊4 * r⌋).toNat, hlt⟩, ?_, ?_, ?_⟩
    · unfold showWellnessSuggestion
      simp only [hidx, hlo, if_true]
      exact List.get?_eq_get hlt
    · exact List.get?_eq_get hlt
    · exact List.get_mem _ _ _

/-- Instance of C11: mood 6 with the draw 3/4 shows the fourth moderate message. -/
theorem showWellnessSuggestion_from_pool_witness :
    (0 : ℚ) ≤ 3 / 4 ∧ (3 / 4 : ℚ) < 1 ∧
      ∃ msg, showWellnessSuggestion 6 ["walk"] (3 / 4) = some msg ∧
        (suggestions (suggestionCategory 6)).get? (⌊4 * (3 / 4 : ℚ)⌋).toNat = some msg ∧
        msg ∈ suggestions (suggestionCategory 6) :=
  ⟨by norm_num, by norm_num,
    (showWellnessSuggestion_from_pool 6 (3 / 4) ["walk"] (by norm_num)
      (by norm_num)).2.2.2.2.2.2.2.2.1⟩

/-! ## Theorems. Frame of a save -/

/-- Replacing or pushing gives, up to order, the saved entry plus the list
without its first record of that date. -/
theorem upsert_perm (e : Entry) (l : List Entry) :
    (upsert e l).Perm (e :: l.eraseP (fun x => x.date == e.date)) := by
  induction l with
  | nil => simp [upsert_nil]
  | cons a l ih =>
    rw [upsert_cons]
    by_cases hd : a.date = e.date
    · rw [if_pos hd, List.eraseP_cons_of_pos (by simpa using hd)]
    · rw [if_neg hd, List.eraseP_cons_of_neg (by simpa using hd)]
      exact (List.Perm.cons a ih).trans (List.Perm.swap e a _)

/-- Erasing the first record of a date does not change how often an entry of
another date occurs. -/
theorem count_eraseP_other_date (x : Entry) (d : Int) (l : List Entry) (hx : x.date ≠ d) :
    (l.eraseP (fun y => y.date == d)).count x = l.count x := by
  induction l with
  | nil => rfl
  | cons a l ih =>
    by_cases hd : a.date = d
    · rw [List.eraseP_cons_of_pos (by simpa using hd)]
      have hne : x ≠ a := fun h => hx (h ▸ hd)
      rw [List.count_cons_of_ne hne]
    · rw [List.eraseP_cons_of_neg (by simpa using hd)]
      simp only [List.count_cons, ih]

/-- C14: `saveEntry(e)` yields, as a multiset, the old collection without its
first entry dated `e.date` (if any) plus `e`; every entry of another date
occurs as often as before, nothing but `e` is added, and the length grows by
one when the date was absent and is unchanged otherwise. -/
theorem saveEntry_frame (e : Entry) (st : Storage) :
    (getAllEntries (saveEntry e st)).Perm
        (e :: (getAllEntries st).eraseP (fun x => x.date == e.date)) ∧
      (∀ x : Entry, x.date ≠ e.date →
        (getAllEntries (saveEntry e st)).count x = (getAllEntries st).count x) ∧
      (∀ x ∈ getAllEntries (saveEntry e st), x = e ∨ x ∈ getAllEntries st) ∧
      (e.date ∉ (getAllEntries st).map Entry.date →
        (getAllEntries (saveEntry e st)).length = (getAllEntries st).length + 1) ∧
      (e.date ∈ (getAllEntries st).map Entry.date →
        (getAllEntries (saveEntry e st)).length = (getAllEntries st).length) := by
  have hp : (getAllEntries (saveEntry e st)).Perm
      (e :: (getAllEntries st).eraseP (fun x => x.date == e.date)) := by
    rw [getAllEntries_saveEntry]
    exact (sortNewestFirst_perm _).trans (upsert_perm e _)
  refine ⟨hp, ?_, ?_, ?_, ?_⟩
  · intro x hx
    have hne : x ≠ e := fun h => hx (h ▸ rfl)
    rw [hp.count_eq, List.count_cons_of_ne hne, count_eraseP_other_date x e.date _ hx]
  · intro x hx
    rw [getAllEntries_saveEntry] at hx
    exact mem_upsert e x _ ((sortNewestFirst_perm _).mem_iff.1 hx)
  · intro h
    rw [getAllEntries_saveEntry, (sortNewestFirst_perm _).length_eq]
    exact length_upsert_of_not_mem e _ h
  · intro h
    rw [getAllEntries_saveEntry, (sortNewestFirst_perm _).length_eq]
    exact length_upsert_of_mem e _ h

/-- Instance of C14: saving a new record for 2024-01-09 into the three-entry
store keeps its length and leaves the record of 2024-01-10 in place. -/
theorem saveEntry_frame_witness :
    (plainEntry (dateOf 2024 1 9) 9 8 1).date ∈ (getAllEntries threeDayStore).map Entry.date ∧
      (plainEntry (dateOf 2024 1 10) 7 8 2).date ≠ (plainEntry (dateOf 2024 1 9) 9 8 1).date ∧
      (getAllEntries (saveEntry (plainEntry (dateOf 2024 1 9) 9 8 1) threeDayStore)).length =
        (getAllEntries threeDayStore).length ∧
      (getAllEntries (saveEntry (plainEntry (dateOf 2024 1 9) 9 8 1) threeDayStore)).count
          (plainEntry (dateOf 2024 1 10) 7 8 2) =
        (getAllEntries threeDayStore).count (plainEntry (dateOf 2024 1 10) 7 8 2) :=
  ⟨by decide, by decide,
    (saveEntry_frame (plainEntry (dateOf 2024 1 9) 9 8 1) threeDayStore).2.2.2.2 (by decide),
    (saveEntry_frame (plainEntry (dateOf 2024 1 9) 9 8 1) threeDayStore).2.1 _ (by decide)⟩

/-! ## Theorems. CSV export: the notes field -/

/-- Doubling writes each character once, or twice when it is a double quote. -/
theorem doubleQuotes_eq_flatMap (cs : List Char) :
    doubleQuotes cs = cs.flatMap (fun c => if c = '"' then ['"', '"'] else [c]) := by
  induction cs with
  | nil => rfl
  | cons c cs ih =>
    by_cases h : c = '"'
    · simp [doubleQuotes, h, ih]
    · simp [doubleQuotes, h, ih]

/-- Collapsing passes over a character that is not a double quote. -/
theorem collapseQuotes_cons_other (c : Char) (cs : List Char) (h : c ≠ '"') :
    collapseQuotes (c :: cs) = c :: collapseQuotes cs := by
  cases cs with
  | nil => simp [collapseQuotes]
  | cons d cs => simp [collapseQuotes, h]

/-- Collapsing undoes doubling. -/
theorem collapseQuotes_doubleQuotes (cs : List Char) :
    collapseQuotes (doubleQuotes cs) = cs := by
  induction cs with
  | nil => rfl
  | cons c cs ih =>
    by_cases h : c = '"'
    · subst h
      simp [doubleQuotes, collapseQuotes, ih]
    · simp only [doubleQuotes, h, if_false]
      rw [collapseQuotes_cons_other _ _ h, ih]

/-- The notes of a row are the journal with its quotes doubled, also when the
journal is empty. -/
theorem notesField_data (journal : String) :
    (notesField journal).data = '"' :: (doubleQuotes journal.data ++ ['"']) := by
  unfold notesField
  by_cases h : journal = ""
  · subst h
    rfl
  · simp [h, replaceQuotes]

/-- The notes field is the journal with every double quote doubled, between
two double quotes, also for the empty journal, and un-quoting it gives the
journal back. -/
theorem notesField_spec (journal : String) :
    notesField journal = "\"" ++ replaceQuotes journal ++ "\"" ∧
      (replaceQuotes journal).data =
        journal.data.flatMap (fun c => if c = '"' then ['"', '"'] else [c]) ∧
      csvUnquote (notesField journal) = some journal := by
  refine ⟨?_, ?_, ?_⟩
  · apply String.ext
    rw [notesField_data]
    simp [replaceQuotes]
  · exact doubleQuotes_eq_flatMap journal.data
  · unfold csvUnquote
    rw [notesField_data]
    simp [List.getLast?_append, List.dropLast_concat, collapseQuotes_doubleQuotes]

/-! ## Theorems. CSV export: reading the rows back -/

/-- Doubling leaves a text without double quotes as it is. -/
theorem doubleQuotes_of_quoteFree (cs : List Char) (h : ∀ c ∈ cs, c ≠ '"') :
    doubleQuotes cs = cs := by
  induction cs with
  | nil => rfl
  | cons c cs ih =>
    have hc : c ≠ '"' := h c (List.mem_cons_self _ _)
    simp only [doubleQuotes, hc, if_false]
    rw [ih (fun d hd => h d (List.mem_cons_of_mem _ hd))]

/-- Inside an unquoted field the reader takes in harmless characters. -/
theorem parseCsvFrom_bare_run (cs cur : List Char) (row : List String)
    (rows : List (List String)) (rest : List Char)
    (h : ∀ c ∈ cs, c ≠ '"' ∧ c ≠ ',' ∧ c ≠ '\n') :
    parseCsvFrom .bare cur row rows (cs ++ rest) =
      parseCsvFrom .bare (cur ++ cs) row rows rest := by
  induction cs generalizing cur with
  | nil => simp
  | cons c cs ih =>
    obtain ⟨h1, h2, h3⟩ := h c (List.mem_cons_self _ _)
    rw [List.cons_append, parseCsvFrom]
    simp only [h1, h2, h3, if_false]
    rw [ih _ (fun d hd => h d (List.mem_cons_of_mem _ hd))]
    simp

/-- An unquoted field followed by a comma is read as one field. -/
theorem parseCsvFrom_bare_comma (cs cur : List Char) (row : List String)
    (rows : List (List String)) (rest : List Char)
    (h : ∀ c ∈ cs, c ≠ '"' ∧ c ≠ ',' ∧ c ≠ '\n') :
    parseCsvFrom .fieldStart cur row rows (cs ++ ',' :: rest) =
      parseCsvFrom .fieldStart [] (row ++ [String.mk cs]) rows rest := by
  cases cs with
  | nil =>
    rw [List.nil_append, parseCsvFrom]
    simp
  | cons c cs =>
    obtain ⟨h1, h2, h3⟩ := h c (List.mem_cons_self _ _)
    rw [List.cons_append, parseCsvFrom]
    simp only [h1, h2, h3, if_false]
    rw [parseCsvFrom_bare_run cs _ _ _ _ (fun d hd => h d (List.mem_cons_of_mem _ hd)),
      parseCsvFrom]
    simp

/-- An unquoted field followed by a line feed ends the record. -/
theorem parseCsvFrom_bare_newline (cs cur : List Char) (row : List String)
    (rows : List (List String)) (rest : List Char)
    (h : ∀ c ∈ cs, c ≠ '"' ∧ c ≠ ',' ∧ c ≠ '\n') :
    parseCsvFrom .fieldStart cur row rows (cs ++ '\n' :: rest) =
      parseCsvFrom .fieldStart [] [] (rows ++ [row ++ [String.mk cs]]) rest := by
  cases cs with
  | nil =>
    rw [List.nil_append, parseCsvFrom]
    simp
  | cons c cs =>
    obtain ⟨h1, h2, h3⟩ := h c (List.mem_cons_self _ _)
    rw [List.cons_append, parseCsvFrom]
    simp only [h1, h2, h3, if_false]
    rw [parseCsvFrom_bare_run cs _ _ _ _ (fun d hd => h d (List.mem_cons_of_mem _ hd)),
      parseCsvFrom]
    simp

/-- Inside a quoted field the reader takes a text with doubled quotes in as the
text itself. -/
theorem parseCsvFrom_quoted_run (s cur : List Char) (row : List String)
    (rows : List (List String)) (rest : List Char) :
    parseCsvFrom .quoted cur row rows (doubleQuotes s ++ rest) =
      parseCsvFrom .quoted (cur ++ s) row rows rest := by
  induction s generalizing cur with
  | nil => simp [doubleQuotes]
  | cons c s ih =>
    by_cases hc : c = '"'
    · subst hc
      simp only [doubleQuotes, if_true, List.cons_append]
      rw [parseCsvFrom]
      simp only [if_true]
      rw [parseCsvFrom]
      simp only [if_true]
      rw [ih]
      simp
    · simp only [doubleQuotes, hc, if_false, List.cons_append]
      rw [parseCsvFrom]
      simp only [hc, if_false]
      rw [ih]
      simp

/-- A quoted field with doubled quotes, followed by a comma, is read as the
text it stands for. -/
theorem parseCsvFrom_quoted_comma (s cur : List Char) (row : List String)
    (rows : List (List String)) (rest : List Char) :
    parseCsvFrom .fieldStart cur row rows ('"' :: (doubleQuotes s ++ '"' :: ',' :: rest)) =
      parseCsvFrom .fieldStart [] (row ++ [String.mk s]) rows rest := by
  rw [parseCsvFrom]
  simp only [if_true]
  rw [parseCsvFrom_quoted_run, parseCsvFrom]
  simp only [if_true]
  rw [parseCsvFrom]
  simp

/-- A quoted field with doubled quotes, followed by a line feed, ends the
record. -/
theorem parseCsvFrom_quoted_newline (s cur : List Char) (row : List String)
    (rows : List (List String)) (rest : List Char) :
    parseCsvFrom .fieldStart cur row rows ('"' :: (doubleQuotes s ++ '"' :: '\n' :: rest)) =
      parseCsvFrom .fieldStart [] [] (rows ++ [row ++ [String.mk s]]) rest := by
  rw [parseCsvFrom]
  simp only [if_true]
  rw [parseCsvFrom_quoted_run, parseCsvFrom]
  simp only [if_true]
  rw [parseCsvFrom]
  simp

/-- Joining texts without double quotes with `; ` gives a text without double
quotes. -/
theorem quoteFree_intercalate_go (acc : String) (tags : List String)
    (hacc : QuoteFree acc) (h : ∀ tag ∈ tags, QuoteFree tag) :
    QuoteFree (String.intercalate.go acc "; " tags) := by
  induction tags generalizing acc with
  | nil => simpa [String.intercalate.go] using hacc
  | cons t ts ih =>
    rw [String.intercalate.go]
    apply ih
    · intro c hc
      simp only [String.data_append, List.mem_append] at hc
      rcases hc with (hc | hc) | hc
      · exact hacc c hc
      · have : c = ';' ∨ c = ' ' := by simpa using hc
        rcases this with h1 | h1 <;> rw [h1] <;> decide
      · exact h t (List.mem_cons_self _ _) c hc
    · exact fun tag ht => h tag (List.mem_cons_of_mem _ ht)

/-- The activities text of an entry whose tags hold no double quote holds none. -/
theorem quoteFree_intercalate (tags : List String) (h : ∀ tag ∈ tags, QuoteFree tag) :
    QuoteFree ("; ".intercalate tags) := by
  cases tags with
  | nil => intro c hc; simp [String.intercalate] at hc
  | cons t ts =>
    rw [String.intercalate]
    exact quoteFree_intercalate_go t ts (h t (List.mem_cons_self _ _))
      (fun tag ht => h tag (List.mem_cons_of_mem _ ht))

/-- The characters of a row, field by field. -/
theorem csvRow_data (host : Host) (e : Entry) :
    (csvRow host e).data =
      '"' :: ((host.toLocaleDateString e.date).data ++ '"' :: ',' ::
        ((host.numberToString e.mood).data ++ ',' ::
          ((host.numberToString e.sleep).data ++ ',' ::
            ((stressText host e.stress).data ++ ',' ::
              '"' :: (("; ".intercalate e.activities).data ++ '"' :: ',' ::
                '"' :: (doubleQuotes e.journal.data ++ '"' :: '\n' :: [])))))) := by
  unfold csvRow activitiesField
  simp only [String.data_append, notesField_data]
  simp

/-- The reader takes one row of an exportable entry in as one record of its
six values. -/
theorem parseCsvFrom_csvRow (host : Host) (e : Entry) (he : Exportable host e)
    (cur : List Char) (rows : List (List String)) (rest : List Char) :
    parseCsvFrom .fieldStart cur [] rows ((csvRow host e).data ++ rest) =
      parseCsvFrom .fieldStart [] [] (rows ++ [rowFields host e]) rest := by
  obtain ⟨hd, hm, hs, ht, ha⟩ := he
  have hact := quoteFree_intercalate e.activities ha
  rw [csvRow_data]
  simp only [List.cons_append, List.append_assoc, List.nil_append]
  rw [← doubleQuotes_of_quoteFree (host.toLocaleDateString e.date).data hd,
    parseCsvFrom_quoted_comma, parseCsvFrom_bare_comma _ _ _ _ _ hm,
    parseCsvFrom_bare_comma _ _ _ _ _ hs, parseCsvFrom_bare_comma _ _ _ _ _ ht]
  rw [← doubleQuotes_of_quoteFree ("; ".intercalate e.activities).data hact,
    parseCsvFrom_quoted_comma, parseCsvFrom_quoted_newline]
  simp [rowFields, doubleQuotes_of_quoteFree _ hd, doubleQuotes_of_quoteFree _ hact]

/-- The reader takes the header line in as one record of the six column names. -/
theorem parseCsvFrom_csvHeader (cur : List Char) (rest : List Char) :
    parseCsvFrom .fieldStart cur [] [] (csvHeader.data ++ rest) =
      parseCsvFrom .fieldStart [] [] [headerFields] rest := by
  have hdata : csvHeader.data = "Date,Mood,Sleep (hrs),Stress,Activities,Notes\n".data := rfl
  rw [hdata]
  simp [parseCsvFrom, headerFields]

/-- The exported text is the header followed by the rows in the order of the
entries. -/
theorem exportCSV_data (host : Host) (entries : List Entry) :
    (exportCSV host entries).data =
      csvHeader.data ++ entries.flatMap (fun e => (csvRow host e).data) := by
  have h : ∀ (es : List Entry) (acc : String),
      (es.foldl (fun csv entry => csv ++ csvRow host entry) acc).data =
        acc.data ++ es.flatMap (fun e => (csvRow host e).data) := by
    intro es
    induction es with
    | nil => intro acc; simp
    | cons e es ih =>
      intro acc
      rw [List.foldl_cons, ih, String.data_append, List.flatMap_cons, List.append_assoc]
  exact h entries csvHeader

/-- The reader takes the rows of exportable entries in as one record each, in
order. -/
theorem parseCsvFrom_rows (host : Host) (entries : List Entry)
    (h : ∀ e ∈ entries, Exportable host e) (cur : List Char) (rows : List (List String)) :
    parseCsvFrom .fieldStart cur [] rows (entries.flatMap (fun e => (csvRow host e).data)) =
      some (rows ++ entries.map (rowFields host)) := by
  induction entries generalizing cur rows with
  | nil => simp [parseCsvFrom]
  | cons e es ih =>
    rw [List.flatMap_cons, parseCsvFrom_csvRow host e (h e (List.mem_cons_self _ _)),
      ih (fun x hx => h x (List.mem_cons_of_mem _ hx))]
    simp

/-- For entries whose date text and activity tags hold no double quote and
whose number texts hold no quote, comma or line feed, reading the export back
by the standard quoting rule gives the header and then, for each entry in the
order supplied, exactly its six values: date, mood, sleep, stress, the tags
joined with `; `, and the journal. -/
theorem parseCsv_exportCSV (host : Host) (entries : List Entry)
    (h : ∀ e ∈ entries, Exportable host e) :
    parseCsv (exportCSV host entries) =
      some (headerFields :: entries.map (rowFields host)) := by
  unfold parseCsv
  rw [exportCSV_data, parseCsvFrom_csvHeader, parseCsvFrom_rows host entries h]
  rfl

/-- Instance of the read-back of exportable entries: a journal with quotes and a
comma, tags with a comma, and an entry without notes or activities. -/
theorem parseCsv_exportCSV_example :
    Exportable (usHost 0) quotedJournalEntry ∧ Exportable (usHost 0) mondayA ∧
      parseCsv (exportCSV (usHost 0) [quotedJournalEntry, mondayA]) =
        some [headerFields,
          ["1/1/2024", "7", "7.5", "2", "walk, slow; read", "He said \"hi\", then left"],
          ["1/1/2024", "4", "6", "2", "", ""]] := by
  have h1 : Exportable (usHost 0) quotedJournalEntry := by
    unfold Exportable
    decide!
  have h2 : Exportable (usHost 0) mondayA := by
    unfold Exportable
    decide!
  refine ⟨h1, h2, ?_⟩
  rw [parseCsv_exportCSV (usHost 0) [quotedJournalEntry, mondayA]
    (by
      intro e he
      rcases List.mem_cons.1 he with h | h
      · rw [h]; exact h1
      · rw [List.mem_singleton.1 h]; exact h2)]
  decide!

/-- C13: an activity tag that holds double quotes is written unescaped: the
tag `gym","pool` gives a row that reads back as seven fields with the
activities split into `gym` and `pool`, and the tag `say "hi"` gives a row
that breaks the quoting rule; a comma in a tag and quotes in the journal read
back as they were. -/
theorem exportCSV_quoted_tag_splits :
    "; ".intercalate quotedTagEntry.activities = "gym\",\"pool" ∧
      exportCSV (usHost 0) [quotedTagEntry] =
        "Date,Mood,Sleep (hrs),Stress,Activities,Notes\n" ++
          "\"1/1/2024\",7,7.5,2,\"gym\",\"pool\",\"fine\"\n" ∧
      parseCsv (exportCSV (usHost 0) [quotedTagEntry]) =
        some [headerFields, ["1/1/2024", "7", "7.5", "2", "gym", "pool", "fine"]] ∧
      parseCsv (exportCSV (usHost 0)
        [{ quotedTagEntry with activities := ["say \"hi\""] }]) = none ∧
      parseCsv (exportCSV (usHost 0) [quotedJournalEntry]) =
        some [headerFields,
          ["1/1/2024", "7", "7.5", "2", "walk, slow; read", "He said \"hi\", then left"]] := by
  decide!

/-- C12: `exportCSV` starts from the header and appends one row per entry; the
row of an entry ends with its Notes field, the journal with every double quote
doubled, wrapped in double quotes, and a line feed; stripping the outer quotes
of that field and replacing each doubled quote by one gives back the journal
exactly, for every journal text; the journal `He said "hi"` is exported as the
field `"He said ""hi"""`. -/
theorem exportCSV_notes_roundtrip (host : Host) (entries : List Entry) (e : Entry) :
    exportCSV host [] = csvHeader ∧
      exportCSV host (entries ++ [e]) = exportCSV host entries ++ csvRow host e ∧
      csvRow host e =
        "\"" ++ host.toLocaleDateString e.date ++ "\"," ++ host.numberToString e.mood ++ "," ++
          host.numberToString e.sleep ++ "," ++ stressText host e.stress ++ "," ++
          activitiesField e.activities ++ "," ++
          ("\"" ++ replaceQuotes e.journal ++ "\"") ++ "\n" ∧
      (∀ journal : String,
        notesField journal = "\"" ++ replaceQuotes journal ++ "\"" ∧
          (replaceQuotes journal).data =
            journal.data.flatMap (fun c => if c = '"' then ['"', '"'] else [c]) ∧
          csvUnquote ("\"" ++ replaceQuotes journal ++ "\"") = some journal ∧
          csvUnquote (notesField journal) = some journal) ∧
      notesField "He said \"hi\"" = "\"He said \"\"hi\"\"\"" ∧
      csvUnquote "\"He said \"\"hi\"\"\"" = some "He said \"hi\"" ∧
      exportCSV (usHost 0) [heSaidEntry] =
        "Date,Mood,Sleep (hrs),Stress,Activities,Notes\n" ++
          "\"1/1/2024\",7,7.5,2,\"gym\",\"He said \"\"hi\"\"\"\n" ∧
      parseCsv (exportCSV (usHost 0) [heSaidEntry]) =
        some [headerFields, ["1/1/2024", "7", "7.5", "2", "gym", "He said \"hi\""]] := by
  refine ⟨rfl, ?_, ?_, ?_, by decide, by decide, by decide!, by decide!⟩
  · unfold exportCSV
    rw [List.foldl_append]
    rfl
  · unfold csvRow
    rw [(notesField_spec e.journal).1]
  · intro journal
    obtain ⟨h1, h2, h3⟩ := notesField_spec journal
    refine ⟨h1, h2, ?_, h3⟩
    rw [← h1]
    exact h3

end Wellness
